import Mathlib

/-!
# CodeView (`app.js`): tree renderer, content collector and report assembler

A shallow embedding of `src/app.js`.  The program lists a directory
recursively, renders an ASCII tree of it, concatenates the "important" files
into one report and annotates every file with a starting line number.

Modelling conventions

* The file system below the scan root is an explicit value of type `Entry`
  (what `fs.readdir(..., { withFileTypes: true })` and `fs.readFile` would
  answer), listing order included.  A failing `readdir` or `readFile` is a flag
  on the node, and the `async` functions return `Except FsError _`.
* A position below the scan root is the list of entry names leading to it;
  `path.relative(directory, p)` is that list joined with `path.sep` (POSIX,
  `/`).
* JavaScript strings are Lean strings; `split`, `trim`, `repeat`, `join` and
  `path.extname` are re-implemented on character lists.
* `performance.now()` is real time: the elapsed time, in hundredths of a
  second, is a parameter of the functions that print it.
-/

namespace CodeView

instance instDecidableEqExcept {ε α : Type} [DecidableEq ε] [DecidableEq α] :
    DecidableEq (Except ε α)
  | .ok a, .ok b => if h : a = b then isTrue (by rw [h]) else isFalse (by intro h1; cases h1; exact h rfl)
  | .error a, .error b => if h : a = b then isTrue (by rw [h]) else isFalse (by intro h1; cases h1; exact h rfl)
  | .ok _, .error _ => isFalse (by intro h; cases h)
  | .error _, .ok _ => isFalse (by intro h; cases h)

/-! ## JavaScript string primitives -/

/-- Pieces of a character list cut at every occurrence of `sep`: the core of
`String.prototype.split` with a one-character separator.  The result is never
empty (`"".split(sep)` is `[""]`). -/
def splitChars (sep : Char) : List Char → List (List Char)
  | [] => [[]]
  | c :: cs =>
    if c = sep then [] :: splitChars sep cs
    else
      match splitChars sep cs with
      | [] => [[c]]
      | p :: ps => (c :: p) :: ps

/-- `s.split(sep)` for a one-character separator. -/
def jsSplit (s : String) (sep : Char) : List String :=
  (splitChars sep s.data).map String.mk

/-- `s.split("\n").length`, the line count used throughout `app.js`. -/
def lineCount (s : String) : Nat :=
  (jsSplit s '\n').length

/-- `s.repeat(n)`. -/
def jsRepeat (s : String) (n : Nat) : String :=
  String.join (List.replicate n s)

/-- `xs.join(sep)`. -/
def jsJoin (xs : List String) (sep : String) : String :=
  sep.intercalate xs

/-- White space and line terminators removed by `String.prototype.trim`
(ECMAScript `WhiteSpace` and `LineTerminator`). -/
def isJsWhitespace (c : Char) : Bool :=
  let n := c.toNat
  n = 0x9 || n = 0xA || n = 0xB || n = 0xC || n = 0xD || n = 0x20 || n = 0xA0 ||
  n = 0x1680 || (0x2000 ≤ n && n ≤ 0x200A) || n = 0x2028 || n = 0x2029 ||
  n = 0x202F || n = 0x205F || n = 0x3000 || n = 0xFEFF

/-- `s.trim()`. -/
def jsTrim (s : String) : String :=
  String.mk (((s.data.dropWhile isJsWhitespace).reverse.dropWhile isJsWhitespace).reverse)

/-- Two decimal digits of a number below 100. -/
def twoDigits (n : Nat) : String :=
  (if n < 10 then "0" else "") ++ toString n

/-- `(x).toFixed(2)` for the non-negative number `centis / 100`. -/
def toFixed2 (centis : Nat) : String :=
  toString (centis / 100) ++ "." ++ twoDigits (centis % 100)

/-! ## `path.extname` (Node.js, POSIX flavour) -/

/-- Loop variables of `path.extname`; `none` stands for `-1`. -/
structure ExtScan where
  startDot : Option Nat
  startPart : Nat
  endPos : Option Nat
  matchedSlash : Bool
  preDotState : Int
deriving DecidableEq, Repr

/-- Backwards scan of `path.extname`: `extnameScan cs i s` runs the loop
for the indices `i - 1, ..., 0`. -/
def extnameScan (cs : List Char) : Nat → ExtScan → ExtScan
  | 0, s => s
  | i + 1, s =>
    let code := cs.getD i ' '
    if code = '/' then
      if !s.matchedSlash then { s with startPart := i + 1 }
      else extnameScan cs i s
    else
      let s1 := if s.endPos.isNone then { s with matchedSlash := false, endPos := some (i + 1) } else s
      let s2 :=
        if code = '.' then
          if s1.startDot.isNone then { s1 with startDot := some i }
          else if s1.preDotState ≠ 1 then { s1 with preDotState := 1 }
          else s1
        else if s1.startDot.isSome then { s1 with preDotState := -1 }
        else s1
      extnameScan cs i s2

/-- `path.extname(p)`: the text from the last dot of the last path component,
empty when there is no dot, when the only dot starts the component, or when
the component is `..`. -/
def extname (p : String) : String :=
  let cs := p.data
  let s := extnameScan cs cs.length ⟨none, 0, none, true, 0⟩
  match s.startDot, s.endPos with
  | some startDot, some e =>
    if s.preDotState = 0 ∨ (s.preDotState = 1 ∧ startDot = e - 1 ∧ startDot = s.startPart + 1) then ""
    else String.mk ((cs.drop startDot).take (e - startDot))
  | _, _ => ""

/-! ## Constants of `app.js` -/

def IGNORED_DIRS : List String := ["node_modules", "build", "dist", ".git"]

def IGNORED_FILES : List String := [".DS_Store", ".gitignore", "package-lock.json", "yarn.lock"]

def IMPORTANT_EXTENSIONS : List String :=
  [".js", ".jsx", ".ts", ".tsx", ".py", ".css", ".html", ".md", ".json"]

/-- The line of 80 `=` characters, `"=".repeat(80)`. -/
def RULE : String := jsRepeat "=" 80

def FILE_DELIMITER : String := "\n\n" ++ RULE ++ "\n\n"

/-! ## The file system seen by the program -/

/-- One directory entry, as returned by `readdir` with `withFileTypes`, together
with what reading it yields.  `content = none` is a file whose `readFile`
fails; `readable = false` is a directory whose `readdir` fails; `other` is an
entry that is neither a regular file nor a directory (symbolic link, socket). -/
inductive Entry where
  | file (name : String) (content : Option String)
  | directory (name : String) (readable : Bool) (entries : List Entry)
  | other (name : String)

namespace Entry

def name : Entry → String
  | file n _ => n
  | directory n _ _ => n
  | other n => n

def isFile : Entry → Bool
  | file _ _ => true
  | _ => false

def isDirectory : Entry → Bool
  | directory _ _ _ => true
  | _ => false

end Entry

/-- I/O failures, tagged with the position (names below the scan root) of the
node on which the call failed. -/
inductive FsError where
  | readdir (at_ : List String)
  | readFile (at_ : List String)
  | writeFile (target : String)
deriving DecidableEq, Repr

/-- `path.relative(directory, p)` for the position `segs` below the scan root. -/
def relativePath (segs : List String) : String :=
  jsJoin segs "/"

/-! ## Tree renderer (`generateTree`, lines 25-54) -/

/-- One line appended to `tree`, with the position of the entry it shows. -/
structure TreeLine where
  path : List String
  isDir : Bool
  text : String
deriving DecidableEq, Repr

/-- The second loop of `generateTree` (lines 43-51), over `files` with its
index. -/
def treeFiles (segs : List String) (indent : String) (nFiles : Nat) :
    List Entry → Nat → List TreeLine
  | [], _ => []
  | file :: rest, index =>
    if ¬ file.name ∈ IGNORED_FILES then
      let ext := extname file.name
      if ext ∈ IMPORTANT_EXTENSIONS then
        let isLast : Bool := index = nFiles - 1
        ⟨segs ++ [file.name], false,
          indent ++ (if isLast then "└── " else "├── ") ++ file.name ++ "\n"⟩ ::
          treeFiles segs indent nFiles rest (index + 1)
      else treeFiles segs indent nFiles rest (index + 1)
    else treeFiles segs indent nFiles rest (index + 1)

mutual
/-- Lines appended to `tree` by `generateTree(directory, prefix, excludeDirs)`
for the directory node at position `segs`. -/
def treeLines (excludeDirs : List String) (segs : List String) :
    Entry → String → Except FsError (List TreeLine)
  | .directory _ readable entries, indent =>
    if readable then do
      let files := entries.filter Entry.isFile
      let directories := entries.filter Entry.isDirectory
      let dirLines ← treeDirectories excludeDirs segs indent directories.length files.length entries 0
      .ok (dirLines ++ treeFiles segs indent files.length files 0)
    else .error (.readdir segs)
  | .file _ _, _ => .error (.readdir segs)
  | .other _, _ => .error (.readdir segs)
termination_by structural dir => dir
/-- The first loop of `generateTree` (lines 31-41).  It runs over the raw
listing and skips what is not a directory, `index` counting the directories
met so far: this is the loop over `directories.entries()`. -/
def treeDirectories (excludeDirs : List String) (segs : List String) (indent : String)
    (nDirectories nFiles : Nat) : List Entry → Nat → Except FsError (List TreeLine)
  | [], _ => .ok []
  | dir :: rest, index =>
    match dir with
    | .directory name _ _ =>
      if ¬ name ∈ IGNORED_DIRS ∧ ¬ name ∈ excludeDirs then do
        let isLast : Bool := index = nDirectories - 1 ∧ nFiles = 0
        let line : TreeLine :=
          ⟨segs ++ [name], true, indent ++ (if isLast then "└── " else "├── ") ++ name ++ "/\n"⟩
        let sub ← treeLines excludeDirs (segs ++ [name]) dir
          (indent ++ (if isLast then "    " else "│   "))
        let more ← treeDirectories excludeDirs segs indent nDirectories nFiles rest (index + 1)
        .ok (line :: sub ++ more)
      else treeDirectories excludeDirs segs indent nDirectories nFiles rest (index + 1)
    | .file _ _ => treeDirectories excludeDirs segs indent nDirectories nFiles rest index
    | .other _ => treeDirectories excludeDirs segs indent nDirectories nFiles rest index
termination_by structural es => es
end

/-- The string built from the appended lines. -/
def renderTree (ls : List TreeLine) : String :=
  String.join (ls.map TreeLine.text)

/-- `generateTree(directory, prefix, excludeDirs)` on the directory node `dir`. -/
def generateTree (dir : Entry) (indent : String) (excludeDirs : List String) :
    Except FsError String :=
  (treeLines excludeDirs [] dir indent).map renderTree

/-! ## Content collector (`readCodebaseFiles`, lines 56-125) -/

/-- One qualifying file as the collector met it: its position, its text and the
value of `currentLine` at that moment.  The list of these records is the
structured form of `fileList` and of the blocks appended to `output`. -/
structure FileRecord where
  path : List String
  content : String
  startLine : Nat
deriving DecidableEq, Repr

/-- The variables `output`, `fileList`, `fileCount`, `totalLines` and
`currentLine` of `readCodebaseFiles`, shared by the calls of
`processDirectory`; `index` keeps the same information as `fileList` in
structured form. -/
structure State where
  output : String
  fileList : List String
  fileCount : Nat
  totalLines : Nat
  currentLine : Nat
  index : List FileRecord
deriving DecidableEq, Repr

/-- The text `<relativePath> (starts at line <N>)` pushed on `fileList`. -/
def descriptor (segs : List String) (line : Nat) : String :=
  relativePath segs ++ " (starts at line " ++ toString line ++ ")"

/-- The header line `File: <relativePath> (starts at line <N>)`, without the
newline. -/
def header (segs : List String) (line : Nat) : String :=
  "File: " ++ descriptor segs line

/-- Lines 108-119: the bookkeeping done for one qualifying file at position
`segs` whose text is `content`. -/
def addFile (st : State) (segs : List String) (content : String) : State :=
  let lines := lineCount content
  { output := st.output ++ (header segs st.currentLine ++ "\n\n") ++ content ++ FILE_DELIMITER
    fileList := st.fileList ++ [descriptor segs st.currentLine]
    fileCount := st.fileCount + 1
    totalLines := st.totalLines + lines
    currentLine := st.currentLine + 2 + lines + lineCount FILE_DELIMITER
    index := st.index ++ [⟨segs, content, st.currentLine⟩] }

/-- Lines 95-101: `isExcluded` for entries of the directory at position
`segs`. -/
def isExcluded (excludeDirs : List String) (segs : List String) : Bool :=
  (jsSplit (relativePath segs) '/').any (fun segment => decide (segment ∈ excludeDirs))

mutual
/-- `processDirectory(dir)` for the directory node at position `segs`. -/
def processDirectory (excludeDirs : List String) (segs : List String) :
    Entry → State → Except FsError State
  | .directory _ readable entries, st =>
    if readable then processEntries excludeDirs segs entries st
    else .error (.readdir segs)
  | .file _ _, _ => .error (.readdir segs)
  | .other _, _ => .error (.readdir segs)
termination_by structural dir => dir
/-- The loop `for (const entry of entries)` of `processDirectory` (lines
93-122) in the directory at position `segs`. -/
def processEntries (excludeDirs : List String) (segs : List String) :
    List Entry → State → Except FsError State
  | [], st => .ok st
  | entry :: rest, st =>
    match entry with
    | .directory name _ _ =>
      if ¬ name ∈ IGNORED_DIRS ∧ ¬ name ∈ excludeDirs ∧ ¬ isExcluded excludeDirs segs then do
        let st1 ← processDirectory excludeDirs (segs ++ [name]) entry st
        processEntries excludeDirs segs rest st1
      else processEntries excludeDirs segs rest st
    | .file name (some text) =>
      if ¬ name ∈ IGNORED_FILES ∧ ¬ isExcluded excludeDirs segs then
        if extname name ∈ IMPORTANT_EXTENSIONS then
          processEntries excludeDirs segs rest (addFile st (segs ++ [name]) text)
        else processEntries excludeDirs segs rest st
      else processEntries excludeDirs segs rest st
    | .file name none =>
      if ¬ name ∈ IGNORED_FILES ∧ ¬ isExcluded excludeDirs segs then
        if extname name ∈ IMPORTANT_EXTENSIONS then .error (.readFile (segs ++ [name]))
        else processEntries excludeDirs segs rest st
      else processEntries excludeDirs segs rest st
    | .other _ => processEntries excludeDirs segs rest st
termination_by structural es => es
end

/-! ## Report assembler (`readCodebaseFiles`, lines 56-157) -/

/-- The summary template (lines 65-74 and 130-139). -/
def summaryText (directory : String) (fileCount totalLines : Nat) (duration : String)
    (excludeDirs : List String) : String :=
  "Summary:\n" ++
  "  - Directory: " ++ directory ++ "\n" ++
  "  - Files processed: " ++ toString fileCount ++ "\n" ++
  "  - Total lines: " ++ toString totalLines ++ "\n" ++
  "  - Duration: " ++ duration ++ " seconds\n" ++
  "  - Excluded directories: " ++
    (if excludeDirs.length > 0 then jsJoin excludeDirs ", " else "None") ++ "\n" ++
  "\n" ++ RULE ++ "\n" ++ "\n"

/-- The file list block (lines 76-81 and 141-146). -/
def fileListText (fileList : List String) : String :=
  "Files extracted:\n" ++ jsJoin fileList "\n" ++ "\n\n" ++ RULE ++ "\n\n"

/-- The placeholder text `initialContent` (lines 84-85). -/
def initialContent (directory : String) (tree : String) (excludeDirs : List String) : String :=
  summaryText directory 0 0 "0.00" excludeDirs ++ "Directory Structure:\n\n" ++ tree ++ "\n" ++
    fileListText []

/-- The collector variables when `processDirectory(directory)` is called (lines
57-88). -/
def initialState (directory : String) (tree : String) (excludeDirs : List String) : State :=
  let initialOffset := lineCount (initialContent directory tree excludeDirs)
  { output := "", fileList := [], fileCount := 0, totalLines := 0
    currentLine := initialOffset + 1, index := [] }

/-- Lines 57-125 of `readCodebaseFiles`: the collector variables after
`await processDirectory(directory)`. -/
def collect (directory : String) (root : Entry) (excludeDirs : List String) :
    Except FsError State := do
  let tree ← generateTree root "" excludeDirs
  processDirectory excludeDirs [] root (initialState directory tree excludeDirs)

/-- Lines 127-156: the text returned from the final collector variables. -/
def assemble (directory : String) (excludeDirs : List String) (duration : String)
    (finalTree : String) (st : State) : String :=
  summaryText directory st.fileCount st.totalLines duration excludeDirs ++
    "Directory Structure:\n\n" ++ finalTree ++ "\n" ++ fileListText st.fileList ++
    jsTrim st.output

/-- `readCodebaseFiles(directory, excludeDirs)`; `centis` is the measured
duration in hundredths of a second. -/
def readCodebaseFiles (directory : String) (root : Entry) (excludeDirs : List String)
    (centis : Nat) : Except FsError String := do
  let st ← collect directory root excludeDirs
  let finalTree ← generateTree root "" excludeDirs
  .ok (assemble directory excludeDirs (toFixed2 centis) finalTree st)

/-! ## Command line front end (`main`, lines 159-194) -/

/-- `!directory` for the variable `directory`, which is `null` or a string. -/
def falsy : Option String → Bool
  | none => true
  | some s => s = ""

/-- The argument loop of `main` (lines 165-175). -/
def parseArgs : List String → Option String × List String → Option String × List String
  | [], acc => acc
  | [a], (directory, excludeDirs) =>
    if a = "--exclude" ∨ a = "-e" then (directory, excludeDirs)
    else if falsy directory then (some a, excludeDirs)
    else (directory, excludeDirs)
  | a :: v :: rest, (directory, excludeDirs) =>
    if a = "--exclude" ∨ a = "-e" then
      parseArgs rest (directory, (jsSplit v ',').map jsTrim)
    else if falsy directory then parseArgs (v :: rest) (some a, excludeDirs)
    else parseArgs (v :: rest) (directory, excludeDirs)

/-- What the process can see and do outside itself: the directory tree found at
a path, whether a path can be written, `path.join`, and the time the collector
takes. -/
structure World where
  lookup : String → Entry
  writable : String → Bool
  pathJoin : String → String → String
  centis : Nat

/-- Observable result of a run of `main`. -/
structure Outcome where
  exitCode : Nat
  stdout : List String
  stderr : List String
  written : Option (String × String)
deriving DecidableEq, Repr

/-- Text printed for a caught error. -/
def FsError.describe : FsError → String
  | .readdir p => "readdir failed: " ++ relativePath p
  | .readFile p => "readFile failed: " ++ relativePath p
  | .writeFile p => "writeFile failed: " ++ p

/-- `main()` with `process.argv.slice(2) = args`. -/
def main (w : World) (args : List String) : Outcome :=
  let parsed := parseArgs args (none, [])
  let excludeDirs := parsed.2
  if falsy parsed.1 then
    { exitCode := 1, stdout := []
      stderr := ["Please provide a directory path as an argument.",
        "Usage: node script.js <directory> [--exclude|-e <dirnames>]",
        "Example: node script.js ./my-project --exclude test,docs"]
      written := none }
  else
    let directory := parsed.1.getD ""
    match readCodebaseFiles directory (w.lookup directory) excludeDirs w.centis with
    | .ok result =>
      let outputPath := w.pathJoin directory "codebase_review.txt"
      if w.writable outputPath then
        { exitCode := 0
          stdout := ["Codebase contents have been written to " ++ outputPath,
            "Excluded directories: " ++
              (if excludeDirs.length > 0 then jsJoin excludeDirs ", " else "None")]
          stderr := []
          written := some (outputPath, result) }
      else
        { exitCode := 1, stdout := []
          stderr := ["An error occurred: " ++ (FsError.writeFile outputPath).describe]
          written := none }
    | .error e =>
      { exitCode := 1, stdout := [], stderr := ["An error occurred: " ++ e.describe]
        written := none }

/-! ## The collector's traversal without its bookkeeping -/

mutual
/-- The qualifying files (position and text) in the order `processDirectory`
passes them to the bookkeeping of lines 108-119, or the first failure. -/
def visitDirectory (excludeDirs : List String) (segs : List String) :
    Entry → Except FsError (List (List String × String))
  | .directory _ readable entries =>
    if readable then visitEntries excludeDirs segs entries
    else .error (.readdir segs)
  | .file _ _ => .error (.readdir segs)
  | .other _ => .error (.readdir segs)
termination_by structural dir => dir
/-- The files met by the loop over `entries`. -/
def visitEntries (excludeDirs : List String) (segs : List String) :
    List Entry → Except FsError (List (List String × String))
  | [] => .ok []
  | entry :: rest =>
    match entry with
    | .directory name _ _ =>
      if ¬ name ∈ IGNORED_DIRS ∧ ¬ name ∈ excludeDirs ∧ ¬ isExcluded excludeDirs segs then do
        let inner ← visitDirectory excludeDirs (segs ++ [name]) entry
        let later ← visitEntries excludeDirs segs rest
        .ok (inner ++ later)
      else visitEntries excludeDirs segs rest
    | .file name (some text) =>
      if ¬ name ∈ IGNORED_FILES ∧ ¬ isExcluded excludeDirs segs then
        if extname name ∈ IMPORTANT_EXTENSIONS then do
          let later ← visitEntries excludeDirs segs rest
          .ok ((segs ++ [name], text) :: later)
        else visitEntries excludeDirs segs rest
      else visitEntries excludeDirs segs rest
    | .file name none =>
      if ¬ name ∈ IGNORED_FILES ∧ ¬ isExcluded excludeDirs segs then
        if extname name ∈ IMPORTANT_EXTENSIONS then .error (.readFile (segs ++ [name]))
        else visitEntries excludeDirs segs rest
      else visitEntries excludeDirs segs rest
    | .other _ => visitEntries excludeDirs segs rest
termination_by structural es => es
end

/-- The bookkeeping of lines 108-119 run over a list of files. -/
def addFiles (st : State) (files : List (List String × String)) : State :=
  files.foldl (fun s f => addFile s f.1 f.2) st

/-! ## Notions used in the statements, and example directories -/

/-- A directory holding the single file `a.js` with text `x`. -/
def fsA : Entry := .directory "r" true [.file "a.js" (some "x")]

/-- The records the bookkeeping produces for a list of files when the line
counter stands at `line`. -/
def recordsFrom (line : Nat) : List (List String × String) → List FileRecord
  | [] => []
  | f :: fs =>
    ⟨f.1, f.2, line⟩ :: recordsFrom (line + 2 + lineCount f.2 + lineCount FILE_DELIMITER) fs

/-- The text appended to `output` for one file (lines 112-116). -/
def FileRecord.block (r : FileRecord) : String :=
  header r.path r.startLine ++ "\n\n" ++ r.content ++ FILE_DELIMITER

/-- The text pushed on `fileList` for one file (line 111). -/
def FileRecord.descriptor (r : FileRecord) : String :=
  CodeView.descriptor r.path r.startLine

/-- The example of the specification: `a.js` (3 lines) and `sub/b.md` (2 lines). -/
def fsB : Entry :=
  .directory "proj" true
    [.file "a.js" (some "1\n2\n3"), .directory "sub" true [.file "b.md" (some "x\ny")]]

/-- The collector variables after the run on `fsB` without excludes. -/
def stB : State :=
  match collect "proj" fsB [] with
  | .ok st => st
  | .error _ => initialState "proj" "" []

/-- Position reached from `segs` through directories that are not excluded. -/
def Reaches (excludeDirs : List String) (segs : List String) (p : List String) : Prop :=
  ∃ ds name, p = segs ++ ds ++ [name] ∧ ∀ x ∈ ds, ¬ x ∈ excludeDirs

/-- What the lines of the tree below `segs` show: entries reached through
directories that are not excluded, and no excluded directory. -/
def Shown (excludeDirs : List String) (segs : List String) (l : TreeLine) : Prop :=
  ∃ ds name, l.path = segs ++ ds ++ [name] ∧ (∀ x ∈ ds, ¬ x ∈ excludeDirs) ∧
    (l.isDir = true → ¬ name ∈ excludeDirs)

/-- A project with a directory `test` at two depths. -/
def fsC : Entry :=
  .directory "proj" true
    [.directory "src" true
      [.file "main.js" (some "m"), .directory "test" true [.file "t.js" (some "t")]],
     .directory "test" true [.file "u.js" (some "u")],
     .file "index.js" (some "i")]

/-- The collector variables after the run on `fsC` with `test` excluded. -/
def stC : State :=
  match collect "proj" fsC ["test"] with
  | .ok st => st
  | .error _ => initialState "proj" "" []

/-- A directory whose file `b.js` cannot be read. -/
def fsE : Entry :=
  .directory "proj" true [.file "a.js" (some "x"), .file "b.js" none]

/-- A world in which every path holds `fsE`. -/
def worldE : World :=
  { lookup := fun _ => fsE, writable := fun _ => true
    pathJoin := fun a b => a ++ "/" ++ b, centis := 0 }

/-- A directory holding only files whose extension is not allowed. -/
def fsF : Entry :=
  .directory "assets" true
    [.file "notes.txt" (some "n"), .file "logo.PNG" none, .file "Makefile" (some "all:\n"),
     .file "script.JS" (some "s"), .file ".js" (some "hidden")]

/-- A file `a.js` listed before a file `b.txt` that the tree does not show. -/
def fsD : Entry :=
  .directory "proj" true [.file "a.js" (some "x"), .file "b.txt" (some "y")]

/-- A directory `sub` listed together with a file the tree does not show. -/
def fsD2 : Entry :=
  .directory "proj" true [.directory "sub" true [.file "c.js" (some "z")], .file "b.txt" (some "y")]

/-- Every entry is a file whose extension is not allowed. -/
def OnlyOtherFiles (entries : List Entry) : Prop :=
  ∀ e ∈ entries, ∃ name content, e = .file name content ∧ ¬ extname name ∈ IMPORTANT_EXTENSIONS

/-- The positional arguments of a command line: the arguments that are neither
an `--exclude`/`-e` flag nor the value consumed by such a flag. -/
def positionals : List String → List String
  | [] => []
  | [a] => if a = "--exclude" ∨ a = "-e" then [] else [a]
  | a :: v :: rest =>
    if a = "--exclude" ∨ a = "-e" then positionals rest
    else a :: positionals (v :: rest)

/-- What `main` leaves behind when it prints the usage message (lines 177-182). -/
def usageOutcome : Outcome :=
  { exitCode := 1, stdout := []
    stderr := ["Please provide a directory path as an argument.",
      "Usage: node script.js <directory> [--exclude|-e <dirnames>]",
      "Example: node script.js ./my-project --exclude test,docs"]
    written := none }

/-- The `try` block of `main` (lines 184-193) for a given directory and exclude
list. -/
def runPipeline (w : World) (directory : String) (excludeDirs : List String) : Outcome :=
  match readCodebaseFiles directory (w.lookup directory) excludeDirs w.centis with
  | .ok result =>
    let outputPath := w.pathJoin directory "codebase_review.txt"
    if w.writable outputPath then
      { exitCode := 0
        stdout := ["Codebase contents have been written to " ++ outputPath,
          "Excluded directories: " ++
            (if excludeDirs.length > 0 then jsJoin excludeDirs ", " else "None")]
        stderr := []
        written := some (outputPath, result) }
    else
      { exitCode := 1, stdout := []
        stderr := ["An error occurred: " ++ (FsError.writeFile outputPath).describe]
        written := none }
  | .error e =>
    { exitCode := 1, stdout := [], stderr := ["An error occurred: " ++ e.describe]
      written := none }

/-- A line of the tree that shows a file: the file is not ignored and its
extension is allowed. -/
def FileLineAllowed (l : TreeLine) : Prop :=
  l.isDir = false → ∃ segs name, l.path = segs ++ [name] ∧ ¬ name ∈ IGNORED_FILES ∧
    extname name ∈ IMPORTANT_EXTENSIONS

/-- A collected file is not ignored and its extension is allowed. -/
def FileAllowed (f : List String × String) : Prop :=
  ∃ segs name, f.1 = segs ++ [name] ∧ ¬ name ∈ IGNORED_FILES ∧
    extname name ∈ IMPORTANT_EXTENSIONS

/-- A directory with a file in upper case, a file without extension and `a.js`. -/
def fsG : Entry :=
  .directory "proj" true
    [.file "script.JS" (some "s"), .file "Makefile" (some "m"), .file "a.js" (some "x")]

/-- The collector variables after the run on `fsG` without excludes. -/
def stG : State :=
  match collect "proj" fsG [] with
  | .ok st => st
  | .error _ => initialState "proj" "" []

/-- A directory entry that `generateTree` shows: neither ignored nor excluded. -/
def visibleDir (excludeDirs : List String) (e : Entry) : Bool :=
  e.isDirectory && decide (¬ e.name ∈ IGNORED_DIRS) && decide (¬ e.name ∈ excludeDirs)

/-- A file entry that `generateTree` shows: not ignored, with an allowed
extension. -/
def visibleFile (e : Entry) : Bool :=
  e.isFile && decide (¬ e.name ∈ IGNORED_FILES) &&
    decide (extname e.name ∈ IMPORTANT_EXTENSIONS)

/-- The lines of one shown subdirectory: its own line, then its subtree. -/
def DirBlock (excludeDirs segs : List String) (indent : String) (d : Entry)
    (block : List TreeLine) : Prop :=
  ∃ conn cont sub, (conn = "└── " ∧ cont = "    " ∨ conn = "├── " ∧ cont = "│   ") ∧
    treeLines excludeDirs (segs ++ [d.name]) d (indent ++ cont) = .ok sub ∧
    block = ⟨segs ++ [d.name], true, indent ++ conn ++ d.name ++ "/\n"⟩ :: sub

/-- The line of one shown file. -/
def FileLine (segs : List String) (indent : String) (f : Entry) (l : TreeLine) : Prop :=
  ∃ conn, (conn = "└── " ∨ conn = "├── ") ∧
    l = ⟨segs ++ [f.name], false, indent ++ conn ++ f.name ++ "\n"⟩

/-- Whether the directory tree below `root` has a directory at the position
`p` (the names from the scan root down to it). -/
def hasDir : List String → Entry → Bool
  | [], _ => false
  | name :: rest, .directory _ _ entries =>
    entries.any (fun e => e.isDirectory && e.name == name && (rest.isEmpty || hasDir rest e))
  | _ :: _, .file _ _ => false
  | _ :: _, .other _ => false

mutual
/-- `processDirectory` with the test `!isExcluded` taken out of both
conditions of its loop. -/
def processDirectoryNoCheck (excludeDirs : List String) (segs : List String) :
    Entry → State → Except FsError State
  | .directory _ readable entries, st =>
    if readable then processEntriesNoCheck excludeDirs segs entries st
    else .error (.readdir segs)
  | .file _ _, _ => .error (.readdir segs)
  | .other _, _ => .error (.readdir segs)
termination_by structural dir => dir
/-- The loop of `processDirectoryNoCheck`. -/
def processEntriesNoCheck (excludeDirs : List String) (segs : List String) :
    List Entry → State → Except FsError State
  | [], st => .ok st
  | entry :: rest, st =>
    match entry with
    | .directory name _ _ =>
      if ¬ name ∈ IGNORED_DIRS ∧ ¬ name ∈ excludeDirs then do
        let st1 ← processDirectoryNoCheck excludeDirs (segs ++ [name]) entry st
        processEntriesNoCheck excludeDirs segs rest st1
      else processEntriesNoCheck excludeDirs segs rest st
    | .file name (some text) =>
      if ¬ name ∈ IGNORED_FILES then
        if extname name ∈ IMPORTANT_EXTENSIONS then
          processEntriesNoCheck excludeDirs segs rest (addFile st (segs ++ [name]) text)
        else processEntriesNoCheck excludeDirs segs rest st
      else processEntriesNoCheck excludeDirs segs rest st
    | .file name none =>
      if ¬ name ∈ IGNORED_FILES then
        if extname name ∈ IMPORTANT_EXTENSIONS then .error (.readFile (segs ++ [name]))
        else processEntriesNoCheck excludeDirs segs rest st
      else processEntriesNoCheck excludeDirs segs rest st
    | .other _ => processEntriesNoCheck excludeDirs segs rest st
termination_by structural es => es
end

mutual
/-- No directory below the node has a path separator in its name, as is the
case for every name returned by `readdir`. -/
def dirNamesOk : Entry → Bool
  | .directory _ _ entries => dirNamesOkList entries
  | .file _ _ => true
  | .other _ => true
termination_by structural dir => dir
/-- The same for the entries of a listing. -/
def dirNamesOkList : List Entry → Bool
  | [] => true
  | entry :: rest =>
    match entry with
    | .directory name _ _ =>
      !name.data.contains '/' && dirNamesOk entry && dirNamesOkList rest
    | .file _ _ => dirNamesOkList rest
    | .other _ => dirNamesOkList rest
termination_by structural es => es
end

/-- Every name of the position is free of the separator and not excluded. -/
def SegsOk (excludeDirs segs : List String) : Prop :=
  ∀ x ∈ segs, ¬ '/' ∈ x.data ∧ ¬ x ∈ excludeDirs

/-- Lines 57-125 of `readCodebaseFiles` with `processDirectoryNoCheck` in the
place of `processDirectory`. -/
def collectNoCheck (directory : String) (root : Entry) (excludeDirs : List String) :
    Except FsError State := do
  let tree ← generateTree root "" excludeDirs
  processDirectoryNoCheck excludeDirs [] root (initialState directory tree excludeDirs)

/-- A project whose directory `docs` holds only an empty directory. -/
def fsH : Entry :=
  .directory "proj" true
    [.directory "docs" true [.directory "empty" true []], .file "a.js" (some "x")]

/-! ## Auxiliary facts -/

@[simp] theorem addFiles_nil (st : State) : addFiles st [] = st := rfl

@[simp] theorem addFiles_cons (st : State) (f : List String × String)
    (fs : List (List String × String)) :
    addFiles st (f :: fs) = addFiles (addFile st f.1 f.2) fs := by
  unfold addFiles; exact List.foldl_cons _ _

theorem addFiles_append (st : State) (xs ys : List (List String × String)) :
    addFiles st (xs ++ ys) = addFiles (addFiles st xs) ys := by
  unfold addFiles; exact List.foldl_append _ _ _ _

mutual
/-- The collector is its traversal followed by the bookkeeping. -/
theorem processDirectory_eq_visit (excludeDirs : List String) :
    ∀ (e : Entry) (segs : List String) (st : State),
      processDirectory excludeDirs segs e st =
        (visitDirectory excludeDirs segs e).map (addFiles st)
  | .directory _ readable entries, segs, st => by
    rw [processDirectory, visitDirectory]
    by_cases hr : readable = true
    · simp only [hr, if_true]
      exact processEntries_eq_visit excludeDirs entries segs st
    · simp [hr, Except.map]
  | .file _ _, segs, st => by
    rw [processDirectory, visitDirectory]; rfl
  | .other _, segs, st => by
    rw [processDirectory, visitDirectory]; rfl
theorem processEntries_eq_visit (excludeDirs : List String) :
    ∀ (es : List Entry) (segs : List String) (st : State),
      processEntries excludeDirs segs es st =
        (visitEntries excludeDirs segs es).map (addFiles st)
  | [], segs, st => by
    rw [processEntries, visitEntries]; rfl
  | .directory name readable entries :: rest, segs, st => by
    rw [processEntries, visitEntries]
    split
    · rw [processDirectory_eq_visit excludeDirs (.directory name readable entries) (segs ++ [name]) st]
      cases h1 : visitDirectory excludeDirs (segs ++ [name]) (.directory name readable entries) with
      | error e => rfl
      | ok inner =>
        simp only [Except.map, bind, Except.bind]
        rw [processEntries_eq_visit excludeDirs rest segs (addFiles st inner)]
        cases h2 : visitEntries excludeDirs segs rest with
        | error e => rfl
        | ok later => simp [Except.map, addFiles_append]
    · exact processEntries_eq_visit excludeDirs rest segs st
  | .file name (some text) :: rest, segs, st => by
    rw [processEntries, visitEntries]
    split
    · split
      · rw [processEntries_eq_visit excludeDirs rest segs (addFile st (segs ++ [name]) text)]
        cases h2 : visitEntries excludeDirs segs rest with
        | error e => simp [Except.map, bind, Except.bind]
        | ok later => simp [Except.map, bind, Except.bind]
      · exact processEntries_eq_visit excludeDirs rest segs st
    · exact processEntries_eq_visit excludeDirs rest segs st
  | .file name none :: rest, segs, st => by
    rw [processEntries, visitEntries]
    split
    · split
      · rfl
      · exact processEntries_eq_visit excludeDirs rest segs st
    · exact processEntries_eq_visit excludeDirs rest segs st
  | .other _ :: rest, segs, st => by
    rw [processEntries, visitEntries]
    exact processEntries_eq_visit excludeDirs rest segs st
end

/-- The first loop of `generateTree` only looks at the directories of the
listing: running it over `entries.filter isDirectory`, the list
`directories` of the source, gives the same lines. -/
theorem treeDirectories_filter (excludeDirs segs : List String) (indent : String)
    (nd nf : Nat) : ∀ (entries : List Entry) (index : Nat),
      treeDirectories excludeDirs segs indent nd nf (entries.filter Entry.isDirectory) index =
        treeDirectories excludeDirs segs indent nd nf entries index := by
  intro entries
  induction entries with
  | nil => intro index; rfl
  | cons e rest ih =>
    intro index
    cases e with
    | file n c =>
      rw [List.filter_cons_of_neg (by simp [Entry.isDirectory])]
      rw [treeDirectories.eq_def excludeDirs segs indent nd nf (Entry.file n c :: rest)]
      exact ih index
    | other n =>
      rw [List.filter_cons_of_neg (by simp [Entry.isDirectory])]
      rw [treeDirectories.eq_def excludeDirs segs indent nd nf (Entry.other n :: rest)]
      exact ih index
    | directory n r es =>
      rw [List.filter_cons_of_pos (by simp [Entry.isDirectory])]
      rw [treeDirectories, treeDirectories]
      simp only [ih]

theorem join_cons (x : String) (xs : List String) :
    String.join (x :: xs) = x ++ String.join xs := by
  apply String.ext
  simp [String.data_join]

theorem addFiles_index (files : List (List String × String)) :
    ∀ st : State, (addFiles st files).index = st.index ++ recordsFrom st.currentLine files := by
  induction files with
  | nil => intro st; simp [recordsFrom]
  | cons f fs ih =>
    intro st
    rw [addFiles_cons, ih]
    simp [addFile, recordsFrom]

theorem addFiles_totalLines (files : List (List String × String)) :
    ∀ st : State, (addFiles st files).totalLines =
      st.totalLines + (files.map (fun f => lineCount f.2)).sum := by
  induction files with
  | nil => intro st; simp
  | cons f fs ih =>
    intro st
    rw [addFiles_cons, ih]
    simp [addFile, Nat.add_assoc]

theorem addFiles_fileCount (files : List (List String × String)) :
    ∀ st : State, (addFiles st files).fileCount = st.fileCount + files.length := by
  induction files with
  | nil => intro st; simp
  | cons f fs ih =>
    intro st
    rw [addFiles_cons, ih]
    simp [addFile]; omega

theorem addFiles_fileList (files : List (List String × String)) :
    ∀ st : State, (addFiles st files).fileList =
      st.fileList ++ (recordsFrom st.currentLine files).map FileRecord.descriptor := by
  induction files with
  | nil => intro st; simp [recordsFrom]
  | cons f fs ih =>
    intro st
    rw [addFiles_cons, ih]
    simp [addFile, recordsFrom, FileRecord.descriptor]

theorem addFiles_output (files : List (List String × String)) :
    ∀ st : State, (addFiles st files).output =
      st.output ++ String.join ((recordsFrom st.currentLine files).map FileRecord.block) := by
  induction files with
  | nil => intro st; simp [recordsFrom, String.join]
  | cons f fs ih =>
    intro st
    rw [addFiles_cons, ih]
    simp only [recordsFrom, List.map_cons, join_cons]
    simp [addFile, FileRecord.block, String.append_assoc]

theorem recordsFrom_length (files : List (List String × String)) :
    ∀ line, (recordsFrom line files).length = files.length := by
  induction files with
  | nil => intro line; rfl
  | cons f fs ih => intro line; simp [recordsFrom, ih]

theorem recordsFrom_content (files : List (List String × String)) :
    ∀ line, (recordsFrom line files).map FileRecord.content = files.map Prod.snd := by
  induction files with
  | nil => intro line; rfl
  | cons f fs ih => intro line; simp [recordsFrom, ih]

theorem recordsFrom_path (files : List (List String × String)) :
    ∀ line, (recordsFrom line files).map FileRecord.path = files.map Prod.fst := by
  induction files with
  | nil => intro line; rfl
  | cons f fs ih => intro line; simp [recordsFrom, ih]

theorem recordsFrom_ge (files : List (List String × String)) :
    ∀ line, ∀ r ∈ recordsFrom line files, line ≤ r.startLine := by
  induction files with
  | nil => intro line r hr; simp [recordsFrom] at hr
  | cons f fs ih =>
    intro line r hr
    simp only [recordsFrom, List.mem_cons] at hr
    rcases hr with h | h
    · rw [h]
    · have := ih _ r h
      omega

theorem recordsFrom_pairwise (files : List (List String × String)) :
    ∀ line, ((recordsFrom line files).map FileRecord.startLine).Pairwise (· < ·) := by
  induction files with
  | nil => intro line; simp [recordsFrom]
  | cons f fs ih =>
    intro line
    simp only [recordsFrom, List.map_cons, List.pairwise_cons]
    refine ⟨?_, ih _⟩
    intro n hn
    rw [List.mem_map] at hn
    obtain ⟨r, hr, rfl⟩ := hn
    have := recordsFrom_ge fs _ r hr
    omega

theorem recordsFrom_step (files : List (List String × String)) :
    ∀ (line i : Nat) (a b : FileRecord),
      (recordsFrom line files)[i]? = some a → (recordsFrom line files)[i + 1]? = some b →
      b.startLine = a.startLine + 2 + lineCount a.content + lineCount FILE_DELIMITER := by
  induction files with
  | nil => intro line i a b ha; simp [recordsFrom] at ha
  | cons f fs ih =>
    intro line i a b ha hb
    cases i with
    | zero =>
      simp only [recordsFrom, List.getElem?_cons_zero, Option.some.injEq] at ha
      simp only [recordsFrom, List.getElem?_cons_succ] at hb
      cases fs with
      | nil => simp [recordsFrom] at hb
      | cons g gs =>
        simp only [recordsFrom, List.getElem?_cons_zero, Option.some.injEq] at hb
        rw [← ha, ← hb]
    | succ j =>
      simp only [recordsFrom, List.getElem?_cons_succ] at ha hb
      exact ih _ j a b ha hb

theorem collect_ok {directory : String} {root : Entry} {excludeDirs : List String} {st : State}
    (h : collect directory root excludeDirs = .ok st) :
    ∃ tree files, generateTree root "" excludeDirs = .ok tree ∧
      visitDirectory excludeDirs [] root = .ok files ∧
      st = addFiles (initialState directory tree excludeDirs) files := by
  unfold collect at h
  cases ht : generateTree root "" excludeDirs with
  | error e => rw [ht] at h; simp [bind, Except.bind] at h
  | ok tree =>
    rw [ht] at h
    simp only [bind, Except.bind] at h
    rw [processDirectory_eq_visit] at h
    cases hv : visitDirectory excludeDirs [] root with
    | error e => rw [hv] at h; simp [Except.map] at h
    | ok files =>
      rw [hv] at h
      simp only [Except.map, Except.ok.injEq] at h
      exact ⟨tree, files, rfl, rfl, h.symm⟩

/-- The file list is the list of collected records, each rendered as
`<relativePath> (starts at line <N>)`. -/
theorem collect_fileList {directory : String} {root : Entry} {excludeDirs : List String}
    {st : State} (h : collect directory root excludeDirs = .ok st) :
    st.fileList = st.index.map FileRecord.descriptor := by
  obtain ⟨tree, files, -, -, rfl⟩ := collect_ok h
  rw [addFiles_fileList, addFiles_index]
  simp [initialState]

/-- C5: the total computed by `readCodebaseFiles` is the sum, over the files
collected, of the number of pieces obtained by splitting each file's text on
newline. -/
theorem totalLines_eq_sum (directory : String) (root : Entry) (excludeDirs : List String)
    (st : State) (h : collect directory root excludeDirs = .ok st) :
    st.totalLines = (st.index.map (fun r => (jsSplit r.content '\n').length)).sum := by
  obtain ⟨tree, files, -, -, rfl⟩ := collect_ok h
  rw [addFiles_totalLines, addFiles_index]
  have hc := recordsFrom_content files (initialState directory tree excludeDirs).currentLine
  have : (recordsFrom (initialState directory tree excludeDirs).currentLine files).map
      (fun r => (jsSplit r.content '\n').length) = files.map (fun f => lineCount f.2) := by
    rw [show (fun r : FileRecord => (jsSplit r.content '\n').length) =
      (fun c => lineCount c) ∘ FileRecord.content from rfl, ← List.map_map, hc, List.map_map]
    rfl
  simp only [initialState, List.nil_append, Nat.zero_add]
  simp only [initialState] at this
  rw [this]

set_option maxRecDepth 100000 in
/-- C5 on the example of the specification: the total is 5 = 3 + 2. -/
theorem totalLines_eq_sum_witness :
    collect "proj" fsB [] = .ok stB ∧ stB.totalLines = 5 ∧
      stB.totalLines = (stB.index.map (fun r => (jsSplit r.content '\n').length)).sum :=
  ⟨by decide, by decide, totalLines_eq_sum "proj" fsB [] stB (by decide)⟩

/-- C6: the start lines of the recorded file descriptors increase strictly in
the order of collection, and the file list holds exactly these descriptors. -/
theorem startLines_strictly_increasing (directory : String) (root : Entry)
    (excludeDirs : List String) (st : State)
    (h : collect directory root excludeDirs = .ok st) :
    (st.index.map FileRecord.startLine).Pairwise (· < ·) ∧
      st.fileList = st.index.map FileRecord.descriptor := by
  refine ⟨?_, collect_fileList h⟩
  obtain ⟨tree, files, -, -, rfl⟩ := collect_ok h
  rw [addFiles_index]
  simpa [initialState] using recordsFrom_pairwise files _

set_option maxRecDepth 100000 in
/-- C6 on the example of the specification: the start lines are 22 and 32. -/
theorem startLines_strictly_increasing_witness :
    collect "proj" fsB [] = .ok stB ∧ stB.index.map FileRecord.startLine = [22, 32] ∧
      ((stB.index.map FileRecord.startLine).Pairwise (· < ·) ∧
        stB.fileList = stB.index.map FileRecord.descriptor) :=
  ⟨by decide, by decide, startLines_strictly_increasing "proj" fsB [] stB (by decide)⟩

set_option maxRecDepth 100000 in
/-- C7 as stated fails: for the directory holding only `a.js`, the placeholder
block has 19 lines and the first start line is 20, not 21. -/
theorem first_startLine_plus_two_counterexample :
    generateTree fsA "" [] = .ok "└── a.js\n" ∧
      lineCount (initialContent "d" "└── a.js\n" []) = 19 ∧
      (collect "d" fsA []).map (fun st => st.index.map FileRecord.startLine) = .ok [20] ∧
      ¬ (20 = lineCount (initialContent "d" "└── a.js\n" []) + 2) := by
  decide

/-- C7 (amended): the start line of the first collected file is the line count
of the placeholder block plus one. -/
theorem first_startLine (directory : String) (root : Entry) (excludeDirs : List String)
    (st : State) (r : FileRecord) (h : collect directory root excludeDirs = .ok st)
    (hr : st.index.head? = some r) :
    ∃ tree, generateTree root "" excludeDirs = .ok tree ∧
      r.startLine = (jsSplit (initialContent directory tree excludeDirs) '\n').length + 1 := by
  obtain ⟨tree, files, ht, -, rfl⟩ := collect_ok h
  refine ⟨tree, ht, ?_⟩
  rw [addFiles_index] at hr
  cases files with
  | nil => simp [initialState, recordsFrom] at hr
  | cons f fs =>
    simp only [initialState, recordsFrom, List.nil_append, List.head?_cons,
      Option.some.injEq] at hr
    rw [← hr]
    rfl

set_option maxRecDepth 100000 in
/-- C7 (amended) on the example of the specification: 22 = 21 + 1. -/
theorem first_startLine_witness :
    collect "proj" fsB [] = .ok stB ∧
      stB.index.head? = some ⟨["a.js"], "1\n2\n3", 22⟩ ∧
      ∃ tree, generateTree fsB "" [] = .ok tree ∧
        (22 : Nat) = (jsSplit (initialContent "proj" tree []) '\n').length + 1 :=
  ⟨by decide, by decide,
    first_startLine "proj" fsB [] stB ⟨["a.js"], "1\n2\n3", 22⟩ (by decide) (by decide)⟩

/-- C8: between two files collected one after the other the start line advances
by 2, plus the line count of the earlier file, plus the number of pieces of
`FILE_DELIMITER` split on newline. -/
theorem consecutive_startLines (directory : String) (root : Entry) (excludeDirs : List String)
    (st : State) (i : Nat) (a b : FileRecord)
    (h : collect directory root excludeDirs = .ok st)
    (ha : st.index[i]? = some a) (hb : st.index[i + 1]? = some b) :
    b.startLine = a.startLine + 2 + (jsSplit a.content '\n').length +
      (jsSplit FILE_DELIMITER '\n').length := by
  obtain ⟨tree, files, -, -, rfl⟩ := collect_ok h
  rw [addFiles_index] at ha hb
  simp only [initialState, List.nil_append] at ha hb
  exact recordsFrom_step files _ i a b ha hb

set_option maxRecDepth 100000 in
/-- C8 on the example of the specification: 32 = 22 + 2 + 3 + 5. -/
theorem consecutive_startLines_witness :
    collect "proj" fsB [] = .ok stB ∧
      stB.index[0]? = some ⟨["a.js"], "1\n2\n3", 22⟩ ∧
      stB.index[0 + 1]? = some ⟨["sub", "b.md"], "x\ny", 32⟩ ∧
      (32 : Nat) = 22 + 2 + (jsSplit "1\n2\n3" '\n').length +
        (jsSplit FILE_DELIMITER '\n').length :=
  ⟨by decide, by decide, by decide,
    consecutive_startLines "proj" fsB [] stB 0 ⟨["a.js"], "1\n2\n3", 22⟩
      ⟨["sub", "b.md"], "x\ny", 32⟩ (by decide) (by decide) (by decide)⟩

theorem reaches_here (excludeDirs segs : List String) (name : String) :
    Reaches excludeDirs segs (segs ++ [name]) :=
  ⟨[], name, by simp, by simp⟩

theorem reaches_below {excludeDirs segs p : List String} {name : String}
    (hn : ¬ name ∈ excludeDirs) (h : Reaches excludeDirs (segs ++ [name]) p) :
    Reaches excludeDirs segs p := by
  obtain ⟨ds, n, rfl, hds⟩ := h
  refine ⟨name :: ds, n, by simp, ?_⟩
  intro x hx
  rcases List.mem_cons.1 hx with rfl | hx
  · exact hn
  · exact hds x hx

theorem reaches_not_mem_dropLast {excludeDirs p : List String} {d : String}
    (h : Reaches excludeDirs [] p) (hd : d ∈ excludeDirs) : ¬ d ∈ p.dropLast := by
  obtain ⟨ds, n, rfl, hds⟩ := h
  intro hmem
  simp at hmem
  exact hds d hmem hd

mutual
theorem visitDirectory_reaches (excludeDirs : List String) :
    ∀ (e : Entry) (segs : List String) (files : List (List String × String)),
      visitDirectory excludeDirs segs e = .ok files →
      ∀ f ∈ files, Reaches excludeDirs segs f.1
  | .directory _ readable entries, segs, files, h => by
    rw [visitDirectory] at h
    by_cases hr : readable = true
    · simp only [hr, if_true] at h
      exact visitEntries_reaches excludeDirs entries segs files h
    · simp [hr] at h
  | .file _ _, segs, files, h => by
    rw [visitDirectory] at h; cases h
  | .other _, segs, files, h => by
    rw [visitDirectory] at h; cases h
theorem visitEntries_reaches (excludeDirs : List String) :
    ∀ (es : List Entry) (segs : List String) (files : List (List String × String)),
      visitEntries excludeDirs segs es = .ok files →
      ∀ f ∈ files, Reaches excludeDirs segs f.1
  | [], segs, files, h => by
    rw [visitEntries] at h
    cases h
    intro f hf
    cases hf
  | .directory name readable entries :: rest, segs, files, h => by
    rw [visitEntries] at h
    split at h
    · rename_i hc
      cases h1 : visitDirectory excludeDirs (segs ++ [name]) (.directory name readable entries) with
      | error e => rw [h1] at h; simp [bind, Except.bind] at h
      | ok inner =>
        cases h2 : visitEntries excludeDirs segs rest with
        | error e => rw [h1, h2] at h; simp [bind, Except.bind] at h
        | ok later =>
          rw [h1, h2] at h
          simp only [bind, Except.bind, Except.ok.injEq] at h
          subst h
          intro f hf
          rcases List.mem_append.1 hf with hf | hf
          · exact reaches_below hc.2.1
              (visitDirectory_reaches excludeDirs _ (segs ++ [name]) inner h1 f hf)
          · exact visitEntries_reaches excludeDirs rest segs later h2 f hf
    · exact visitEntries_reaches excludeDirs rest segs files h
  | .file name (some text) :: rest, segs, files, h => by
    rw [visitEntries] at h
    split at h
    · split at h
      · cases h2 : visitEntries excludeDirs segs rest with
        | error e => rw [h2] at h; simp [bind, Except.bind] at h
        | ok later =>
          rw [h2] at h
          simp only [bind, Except.bind, Except.ok.injEq] at h
          subst h
          intro f hf
          rcases List.mem_cons.1 hf with rfl | hf
          · exact reaches_here excludeDirs segs name
          · exact visitEntries_reaches excludeDirs rest segs later h2 f hf
      · exact visitEntries_reaches excludeDirs rest segs files h
    · exact visitEntries_reaches excludeDirs rest segs files h
  | .file name none :: rest, segs, files, h => by
    rw [visitEntries] at h
    split at h
    · split at h
      · cases h
      · exact visitEntries_reaches excludeDirs rest segs files h
    · exact visitEntries_reaches excludeDirs rest segs files h
  | .other _ :: rest, segs, files, h => by
    rw [visitEntries] at h
    exact visitEntries_reaches excludeDirs rest segs files h
end

theorem treeFiles_path (segs : List String) (indent : String) (n : Nat) :
    ∀ (files : List Entry) (index : Nat), ∀ l ∈ treeFiles segs indent n files index,
      l.isDir = false ∧ ∃ name, l.path = segs ++ [name] := by
  intro files
  induction files with
  | nil => intro index l hl; simp [treeFiles] at hl
  | cons f rest ih =>
    intro index l hl
    rw [treeFiles] at hl
    split at hl
    · simp only at hl
      split at hl
      · rcases List.mem_cons.1 hl with rfl | hl
        · exact ⟨rfl, f.name, rfl⟩
        · exact ih _ l hl
      · exact ih _ l hl
    · exact ih _ l hl

theorem shown_below {excludeDirs segs : List String} {l : TreeLine} {name : String}
    (hn : ¬ name ∈ excludeDirs) (h : Shown excludeDirs (segs ++ [name]) l) :
    Shown excludeDirs segs l := by
  obtain ⟨ds, n, hp, hds, hdir⟩ := h
  refine ⟨name :: ds, n, by simp [hp], ?_, hdir⟩
  intro x hx
  rcases List.mem_cons.1 hx with rfl | hx
  · exact hn
  · exact hds x hx

mutual
theorem treeLines_shown (excludeDirs : List String) :
    ∀ (e : Entry) (segs : List String) (indent : String) (ls : List TreeLine),
      treeLines excludeDirs segs e indent = .ok ls → ∀ l ∈ ls, Shown excludeDirs segs l
  | .directory _ readable entries, segs, indent, ls, h => by
    rw [treeLines] at h
    by_cases hr : readable = true
    · simp only [hr, if_true] at h
      cases h1 : treeDirectories excludeDirs segs indent
          (entries.filter Entry.isDirectory).length (entries.filter Entry.isFile).length entries 0 with
      | error e => rw [h1] at h; simp [bind, Except.bind] at h
      | ok dirLines =>
        rw [h1] at h
        simp only [bind, Except.bind, Except.ok.injEq] at h
        subst h
        intro l hl
        rcases List.mem_append.1 hl with hl | hl
        · exact treeDirectories_shown excludeDirs entries segs indent _ _ 0 dirLines h1 l hl
        · obtain ⟨hd, name, hp⟩ := treeFiles_path segs indent _ _ _ l hl
          exact ⟨[], name, by simp [hp], by simp, by simp [hd]⟩
    · simp [hr] at h
  | .file _ _, segs, indent, ls, h => by
    rw [treeLines] at h; cases h
  | .other _, segs, indent, ls, h => by
    rw [treeLines] at h; cases h
theorem treeDirectories_shown (excludeDirs : List String) :
    ∀ (es : List Entry) (segs : List String) (indent : String) (nd nf index : Nat)
      (ls : List TreeLine),
      treeDirectories excludeDirs segs indent nd nf es index = .ok ls →
      ∀ l ∈ ls, Shown excludeDirs segs l
  | [], segs, indent, nd, nf, index, ls, h => by
    rw [treeDirectories] at h
    cases h
    intro l hl
    cases hl
  | .directory name readable entries :: rest, segs, indent, nd, nf, index, ls, h => by
    rw [treeDirectories] at h
    split at h
    · rename_i hc
      simp only [bind, Except.bind] at h
      split at h
      · cases h
      · rename_i sub h1
        split at h
        · cases h
        · rename_i more h2
          simp only [Except.ok.injEq] at h
          subst h
          intro l hl
          rcases List.mem_cons.1 hl with rfl | hl
          · exact ⟨[], name, by simp, by simp, fun _ => hc.2⟩
          · rcases List.mem_append.1 hl with hl | hl
            · exact shown_below hc.2 (treeLines_shown excludeDirs _ _ _ sub h1 l hl)
            · exact treeDirectories_shown excludeDirs rest segs indent nd nf _ more h2 l hl
    · exact treeDirectories_shown excludeDirs rest segs indent nd nf _ ls h
  | .file _ _ :: rest, segs, indent, nd, nf, index, ls, h => by
    rw [treeDirectories] at h
    exact treeDirectories_shown excludeDirs rest segs indent nd nf _ ls h
  | .other _ :: rest, segs, indent, nd, nf, index, ls, h => by
    rw [treeDirectories] at h
    exact treeDirectories_shown excludeDirs rest segs indent nd nf _ ls h
end

/-- C2: with `d` in the exclude list, the tree shows no directory that is
named `d` or lies beneath a directory named `d`, and no file beneath a
directory named `d`; the file index and the content buffer, which are the
descriptors and the blocks of the collected records, hold no file beneath a
directory named `d`. -/
theorem excluded_directory_absent (directory : String) (root : Entry)
    (excludeDirs : List String) (d : String) (tree : String) (st : State)
    (hd : d ∈ excludeDirs)
    (ht : generateTree root "" excludeDirs = .ok tree)
    (hs : collect directory root excludeDirs = .ok st) :
    (∃ ls, treeLines excludeDirs [] root "" = .ok ls ∧ tree = renderTree ls ∧
      ∀ l ∈ ls, ¬ d ∈ l.path.dropLast ∧ (l.isDir = true → ¬ d ∈ l.path)) ∧
    st.fileList = st.index.map FileRecord.descriptor ∧
    st.output = String.join (st.index.map FileRecord.block) ∧
    ∀ r ∈ st.index, ¬ d ∈ r.path.dropLast := by
  refine ⟨?_, collect_fileList hs, ?_, ?_⟩
  · unfold generateTree at ht
    cases hl : treeLines excludeDirs [] root "" with
    | error e => rw [hl] at ht; simp [Except.map] at ht
    | ok ls =>
      rw [hl] at ht
      simp only [Except.map, Except.ok.injEq] at ht
      refine ⟨ls, rfl, ht.symm, ?_⟩
      intro l hmem
      obtain ⟨ds, name, hp, hds, hdir⟩ := treeLines_shown excludeDirs root [] "" ls hl l hmem
      simp only [List.nil_append] at hp
      constructor
      · rw [hp]
        simp only [List.dropLast_concat]
        exact fun hm => hds d hm hd
      · intro hisdir hm
        rw [hp] at hm
        rcases List.mem_append.1 hm with hm | hm
        · exact hds d hm hd
        · simp only [List.mem_singleton] at hm
          exact hdir hisdir (hm ▸ hd)
  · obtain ⟨tree', files, -, -, rfl⟩ := collect_ok hs
    rw [addFiles_output, addFiles_index]
    simp [initialState]
  · obtain ⟨tree', files, -, hv, rfl⟩ := collect_ok hs
    intro r hr
    rw [addFiles_index] at hr
    simp only [initialState, List.nil_append] at hr
    have hp : r.path ∈ files.map Prod.fst := by
      rw [← recordsFrom_path files _]
      exact List.mem_map_of_mem _ hr
    obtain ⟨f, hf, hfp⟩ := List.mem_map.1 hp
    have := visitDirectory_reaches excludeDirs root [] files hv f hf
    rw [hfp] at this
    exact reaches_not_mem_dropLast this hd

set_option maxRecDepth 100000 in
/-- C2 on a project with a directory `test` at two depths. -/
theorem excluded_directory_absent_witness :
    "test" ∈ ["test"] ∧
    generateTree fsC "" ["test"] = .ok "├── src/\n│   └── main.js\n└── index.js\n" ∧
    collect "proj" fsC ["test"] = .ok stC ∧
    stC.index.map FileRecord.path = [["src", "main.js"], ["index.js"]] ∧
    ((∃ ls, treeLines ["test"] [] fsC "" = .ok ls ∧
        "├── src/\n│   └── main.js\n└── index.js\n" = renderTree ls ∧
        ∀ l ∈ ls, ¬ "test" ∈ l.path.dropLast ∧ (l.isDir = true → ¬ "test" ∈ l.path)) ∧
      stC.fileList = stC.index.map FileRecord.descriptor ∧
      stC.output = String.join (stC.index.map FileRecord.block) ∧
      ∀ r ∈ stC.index, ¬ "test" ∈ r.path.dropLast) :=
  ⟨by decide, by decide, by decide, by decide,
    excluded_directory_absent "proj" fsC ["test"] "test" _ stC (by decide) (by decide)
      (by decide)⟩

/-- What `main` does when the pipeline fails. -/
theorem main_of_error (w : World) (args : List String) (directory : String)
    (excludeDirs : List String) (e : FsError)
    (hargs : parseArgs args (none, []) = (some directory, excludeDirs))
    (hdir : directory ≠ "")
    (h : readCodebaseFiles directory (w.lookup directory) excludeDirs w.centis = .error e) :
    main w args =
      { exitCode := 1, stdout := [], stderr := ["An error occurred: " ++ e.describe]
        written := none } := by
  unfold main
  simp only [hargs, falsy, Option.getD_some]
  simp [hdir, h]

/-- C9: when the collector fails (a visited directory cannot be listed or a
qualifying file cannot be read), `readCodebaseFiles` fails, with that error
unless the preliminary tree rendering has already failed with its own, and
returns no text; `main` then writes no file, prints nothing on the standard
output and exits with status 1. -/
theorem failure_aborts (directory : String) (root : Entry) (excludeDirs : List String)
    (centis : Nat) (st : State) (e : FsError)
    (hfail : processDirectory excludeDirs [] root st = .error e) :
    (∃ e', readCodebaseFiles directory root excludeDirs centis = .error e' ∧
      (e' = e ∨ generateTree root "" excludeDirs = .error e')) ∧
    ∀ (w : World) (args : List String),
      parseArgs args (none, []) = (some directory, excludeDirs) → directory ≠ "" →
      w.lookup directory = root → w.centis = centis →
      (main w args).exitCode = 1 ∧ (main w args).written = none ∧
        (main w args).stdout = [] := by
  have hv : visitDirectory excludeDirs [] root = .error e := by
    rw [processDirectory_eq_visit] at hfail
    cases hv : visitDirectory excludeDirs [] root with
    | error e1 => rw [hv] at hfail; simp only [Except.map, Except.error.injEq] at hfail; rw [hfail]
    | ok fs => rw [hv] at hfail; simp [Except.map] at hfail
  have hread : ∃ e', readCodebaseFiles directory root excludeDirs centis = .error e' ∧
      (e' = e ∨ generateTree root "" excludeDirs = .error e') := by
    unfold readCodebaseFiles collect
    cases ht : generateTree root "" excludeDirs with
    | error e1 => exact ⟨e1, rfl, Or.inr rfl⟩
    | ok tree =>
      refine ⟨e, ?_, Or.inl rfl⟩
      simp only [bind, Except.bind]
      rw [processDirectory_eq_visit, hv]
      rfl
  refine ⟨hread, ?_⟩
  intro w args hargs hdir hroot hc
  obtain ⟨e', he', -⟩ := hread
  rw [← hroot, ← hc] at he'
  rw [main_of_error w args directory excludeDirs e' hargs hdir he']
  exact ⟨rfl, rfl, rfl⟩

set_option maxRecDepth 100000 in
/-- C9 on a directory whose second file cannot be read. -/
theorem failure_aborts_witness :
    processDirectory [] [] fsE (initialState "proj" "├── a.js\n└── b.js\n" []) =
      .error (.readFile ["b.js"]) ∧
    readCodebaseFiles "proj" fsE [] 0 = .error (.readFile ["b.js"]) ∧
    (∃ e', readCodebaseFiles "proj" fsE [] 0 = .error e' ∧
        (e' = .readFile ["b.js"] ∨ generateTree fsE "" [] = .error e')) ∧
    (main worldE ["proj"]).exitCode = 1 ∧ (main worldE ["proj"]).written = none ∧
      (main worldE ["proj"]).stdout = [] :=
  have h := failure_aborts "proj" fsE [] 0 (initialState "proj" "├── a.js\n└── b.js\n" [])
    (.readFile ["b.js"]) (by decide)
  ⟨by decide, by decide, h.1, h.2 worldE ["proj"] (by decide) (by decide) rfl rfl⟩

theorem treeDirectories_onlyFiles (excludeDirs segs : List String) (indent : String)
    (nd nf : Nat) : ∀ (entries : List Entry) (index : Nat),
      (∀ e ∈ entries, e.isFile = true) →
      treeDirectories excludeDirs segs indent nd nf entries index = .ok [] := by
  intro entries
  induction entries with
  | nil => intro index _; rw [treeDirectories]
  | cons e rest ih =>
    intro index h
    have he := h e (List.mem_cons_self _ _)
    have hrest : ∀ x ∈ rest, x.isFile = true := fun x hx => h x (List.mem_cons_of_mem _ hx)
    cases e with
    | file n c => rw [treeDirectories]; exact ih index hrest
    | directory n r es => simp [Entry.isFile] at he
    | other n => simp [Entry.isFile] at he

theorem treeFiles_onlyOther (segs : List String) (indent : String) (nf : Nat) :
    ∀ (files : List Entry) (index : Nat),
      (∀ e ∈ files, ¬ extname e.name ∈ IMPORTANT_EXTENSIONS) →
      treeFiles segs indent nf files index = [] := by
  intro files
  induction files with
  | nil => intro index _; rfl
  | cons f rest ih =>
    intro index h
    have hf := h f (List.mem_cons_self _ _)
    have hrest : ∀ x ∈ rest, ¬ extname x.name ∈ IMPORTANT_EXTENSIONS :=
      fun x hx => h x (List.mem_cons_of_mem _ hx)
    rw [treeFiles]
    split
    · simp only [hf, if_false]
      exact ih _ hrest
    · exact ih _ hrest

theorem visitEntries_onlyOther (excludeDirs segs : List String) :
    ∀ (entries : List Entry), OnlyOtherFiles entries →
      visitEntries excludeDirs segs entries = .ok [] := by
  intro entries
  induction entries with
  | nil => intro _; rw [visitEntries]
  | cons e rest ih =>
    intro h
    obtain ⟨name, content, rfl, hext⟩ := h e (List.mem_cons_self _ _)
    have hrest : OnlyOtherFiles rest := fun x hx => h x (List.mem_cons_of_mem _ hx)
    cases content with
    | none =>
      rw [visitEntries]
      simp only [hext, if_false]
      split <;> exact ih hrest
    | some text =>
      rw [visitEntries]
      simp only [hext, if_false]
      split <;> exact ih hrest

/-- Trimming the empty string. -/
theorem jsTrim_empty : jsTrim "" = "" := by decide

/-- The separator line, spelled out. -/
theorem rule_eq : RULE = "================================================================================" := by decide

/-- The number 0 as printed. -/
theorem toString_zero : toString (0 : Nat) = "0" := by decide

/-- The pieces of the report with counts 0 and an empty tree, file list and
buffer, regrouped line by line. -/
theorem report_zero_text (directory duration excluded : String) :
    "Summary:\n" ++ "  - Directory: " ++ directory ++ "\n" ++
        "  - Files processed: " ++ "0" ++ "\n" ++
        "  - Total lines: " ++ "0" ++ "\n" ++
        "  - Duration: " ++ duration ++ " seconds\n" ++
        "  - Excluded directories: " ++ excluded ++ "\n" ++
        "\n" ++ "================================================================================" ++ "\n" ++ "\n" ++
        "Directory Structure:\n\n" ++ "" ++ "\n" ++
        ("Files extracted:\n" ++ "" ++ "\n\n" ++ "================================================================================" ++ "\n\n") ++ "" =
      "Summary:\n" ++
        "  - Directory: " ++ directory ++ "\n" ++
        "  - Files processed: 0\n" ++
        "  - Total lines: 0\n" ++
        "  - Duration: " ++ duration ++ " seconds\n" ++
        "  - Excluded directories: " ++ excluded ++ "\n" ++
        "\n" ++ "================================================================================" ++ "\n" ++
        "\n" ++
        "Directory Structure:\n" ++
        "\n" ++
        "\n" ++
        "Files extracted:\n" ++
        "\n" ++
        "\n" ++ "================================================================================" ++ "\n" ++
        "\n" := by
  apply String.ext
  simp only [String.data_append, List.append_assoc]
  rfl


/-- C10: for a directory whose entries are all files with an extension outside
the allowed list, `generateTree` returns the empty string, nothing is
collected, and the report, spelled out character by character, carries the
lines `  - Files processed: 0` and `  - Total lines: 0`, an empty tree and an
empty file list. -/
theorem only_other_files_empty (directory rootName : String) (entries : List Entry)
    (excludeDirs : List String) (indent : String) (centis : Nat)
    (h : ∀ e ∈ entries, ∃ name content,
      e = .file name content ∧ ¬ extname name ∈ IMPORTANT_EXTENSIONS) :
    generateTree (.directory rootName true entries) indent excludeDirs = .ok "" ∧
    (∃ st, collect directory (.directory rootName true entries) excludeDirs = .ok st ∧
      st.index = [] ∧ st.fileList = [] ∧ st.fileCount = 0 ∧ st.totalLines = 0) ∧
    readCodebaseFiles directory (.directory rootName true entries) excludeDirs centis =
      .ok ("Summary:\n" ++
        "  - Directory: " ++ directory ++ "\n" ++
        "  - Files processed: 0\n" ++
        "  - Total lines: 0\n" ++
        "  - Duration: " ++ toFixed2 centis ++ " seconds\n" ++
        "  - Excluded directories: " ++
          (if excludeDirs.length > 0 then jsJoin excludeDirs ", " else "None") ++ "\n" ++
        "\n" ++ "================================================================================" ++ "\n" ++
        "\n" ++
        "Directory Structure:\n" ++
        "\n" ++
        "\n" ++
        "Files extracted:\n" ++
        "\n" ++
        "\n" ++ "================================================================================" ++ "\n" ++
        "\n") := by
  have hfile : ∀ e ∈ entries, e.isFile = true := by
    intro e he
    obtain ⟨n, c, rfl, -⟩ := h e he
    rfl
  have hext : ∀ e ∈ entries.filter Entry.isFile, ¬ extname e.name ∈ IMPORTANT_EXTENSIONS := by
    intro e he
    obtain ⟨n, c, rfl, hx⟩ := h e (List.mem_of_mem_filter he)
    exact hx
  have htree : ∀ ind, generateTree (.directory rootName true entries) ind excludeDirs = .ok "" := by
    intro ind
    unfold generateTree
    rw [treeLines]
    simp only [if_true, treeDirectories_onlyFiles excludeDirs [] ind _ _ entries 0 hfile,
      bind, Except.bind, treeFiles_onlyOther [] ind _ _ 0 hext]
    rfl
  have hcollect : collect directory (.directory rootName true entries) excludeDirs =
      .ok (initialState directory "" excludeDirs) := by
    unfold collect
    rw [htree ""]
    simp only [bind, Except.bind]
    rw [processDirectory_eq_visit, visitDirectory]
    simp only [if_true, visitEntries_onlyOther excludeDirs [] entries h]
    rfl
  refine ⟨htree indent, ⟨_, hcollect, rfl, rfl, rfl, rfl⟩, ?_⟩
  have hjoin : jsJoin ([] : List String) "\n" = "" := rfl
  unfold readCodebaseFiles
  rw [hcollect, htree ""]
  simp only [bind, Except.bind, assemble, initialState, jsTrim_empty, summaryText,
    fileListText, rule_eq, toString_zero, hjoin]
  exact congrArg Except.ok (report_zero_text directory (toFixed2 centis)
    (if excludeDirs.length > 0 then jsJoin excludeDirs ", " else "None"))

set_option maxRecDepth 100000 in
/-- C10 on a directory of five files, none with an allowed extension: the whole
report, character by character. -/
theorem only_other_files_empty_witness :
    readCodebaseFiles "assets" fsF [] 0 =
      .ok ("Summary:\n" ++
        "  - Directory: assets\n" ++
        "  - Files processed: 0\n" ++
        "  - Total lines: 0\n" ++
        "  - Duration: 0.00 seconds\n" ++
        "  - Excluded directories: None\n" ++
        "\n" ++ "================================================================================" ++ "\n" ++
        "\n" ++
        "Directory Structure:\n" ++
        "\n" ++
        "\n" ++
        "Files extracted:\n" ++
        "\n" ++
        "\n" ++ "================================================================================" ++ "\n" ++
        "\n") ∧
    (jsSplit "assets" '\n').length = 1 ∧
    (readCodebaseFiles "assets" fsF [] 0).map (fun report => (jsSplit report '\n')[2]?) =
      .ok (some "  - Files processed: 0") ∧
    (readCodebaseFiles "assets" fsF [] 0).map (fun report => (jsSplit report '\n')[3]?) =
      .ok (some "  - Total lines: 0") ∧
    (generateTree fsF "" [] = .ok "" ∧
      (∃ st, collect "assets" fsF [] = .ok st ∧
        st.index = [] ∧ st.fileList = [] ∧ st.fileCount = 0 ∧ st.totalLines = 0) ∧
      readCodebaseFiles "assets" fsF [] 0 =
        .ok ("Summary:\n" ++
          "  - Directory: " ++ "assets" ++ "\n" ++
          "  - Files processed: 0\n" ++
          "  - Total lines: 0\n" ++
          "  - Duration: " ++ toFixed2 0 ++ " seconds\n" ++
          "  - Excluded directories: " ++
            (if ([] : List String).length > 0 then jsJoin [] ", " else "None") ++ "\n" ++
          "\n" ++ "================================================================================" ++ "\n" ++
          "\n" ++
          "Directory Structure:\n" ++
          "\n" ++
          "\n" ++
          "Files extracted:\n" ++
          "\n" ++
          "\n" ++ "================================================================================" ++ "\n" ++
          "\n")) :=
  ⟨by decide, by decide, by decide, by decide,
    only_other_files_empty "assets" "assets"
      [.file "notes.txt" (some "n"), .file "logo.PNG" none, .file "Makefile" (some "all:\n"),
       .file "script.JS" (some "s"), .file ".js" (some "hidden")] [] "" 0
      (by
        intro e he
        simp only [List.mem_cons, List.mem_singleton, List.not_mem_nil, or_false] at he
        rcases he with rfl | rfl | rfl | rfl | rfl
        · exact ⟨_, _, rfl, by decide⟩
        · exact ⟨_, _, rfl, by decide⟩
        · exact ⟨_, _, rfl, by decide⟩
        · exact ⟨_, _, rfl, by decide⟩
        · exact ⟨_, _, rfl, by decide⟩)⟩

set_option maxRecDepth 100000 in
/-- C1 fails on the directory holding only `a.js`: the recorded start line is
20, but line 20 of the report is empty and the header stands on line 19. -/
theorem header_line_mismatch :
    (collect "d" fsA []).map (fun st => st.index) = .ok [⟨["a.js"], "x", 20⟩] ∧
    (readCodebaseFiles "d" fsA [] 0).map (fun report => (jsSplit report '\n')[20 - 1]?) =
      .ok (some "") ∧
    (readCodebaseFiles "d" fsA [] 0).map (fun report => (jsSplit report '\n')[19 - 1]?) =
      .ok (some "File: a.js (starts at line 20)") := by
  decide

set_option maxRecDepth 100000 in
/-- C3 fails when the exclude list holds the empty string, as after
`--exclude docs,`: the tree shows `a.js` and the collector records nothing. -/
theorem empty_exclude_name_mismatch :
    parseArgs ["d", "--exclude", "docs,"] (none, []) = (some "d", ["docs", ""]) ∧
    (treeLines ["docs", ""] [] fsA "").map (fun ls => ls.map TreeLine.path) =
      .ok [["a.js"]] ∧
    generateTree fsA "" ["docs", ""] = .ok "└── a.js\n" ∧
    (collect "d" fsA ["docs", ""]).map (fun st => (st.index, st.fileList, st.output)) =
      .ok ([], [], "") := by
  decide

set_option maxRecDepth 100000 in
/-- C4 fails when a hidden file is listed last: the only visible entry of the
level gets the connector of an inner entry. -/
theorem last_visible_entry_connector_mismatch :
    generateTree fsD "" [] = .ok "├── a.js\n" ∧
    generateTree fsD2 "" [] = .ok "├── sub/\n│   └── c.js\n" := by
  decide

/-- A text cut at a separator has one piece more than it has separators. -/
theorem splitChars_length (sep : Char) :
    ∀ l : List Char, (splitChars sep l).length = l.count sep + 1 := by
  intro l
  induction l with
  | nil => rfl
  | cons c cs ih =>
    rw [splitChars]
    by_cases h : c = sep
    · subst h
      simp [ih]
    · have hne : (c == sep) = false := by simpa using h
      simp only [h, if_false, List.count_cons, hne]
      cases hs : splitChars sep cs with
      | nil => rw [hs] at ih; simp at ih
      | cons p ps => rw [hs] at ih; simpa using ih

/-- C16: the line count of a text is its number of newline characters plus
one; appending a newline adds one line; the empty text counts as one line. -/
theorem lineCount_eq_newlines_succ (s : String) :
    lineCount s = s.data.count '\n' + 1 ∧
    lineCount (s ++ "\n") = lineCount s + 1 ∧
    lineCount "" = 1 := by
  have h : ∀ t : String, lineCount t = t.data.count '\n' + 1 := by
    intro t
    simp [lineCount, jsSplit, splitChars_length]
  refine ⟨h s, ?_, rfl⟩
  rw [h, h]
  simp [String.data_append]

/-- The report assembled after a successful collection. -/
theorem readCodebaseFiles_of_collect {directory : String} {root : Entry}
    {excludeDirs : List String} {st : State} {tree : String}
    (h : collect directory root excludeDirs = .ok st)
    (ht : generateTree root "" excludeDirs = .ok tree) (centis : Nat) :
    readCodebaseFiles directory root excludeDirs centis =
      .ok (summaryText directory st.fileCount st.totalLines (toFixed2 centis) excludeDirs ++
        "Directory Structure:\n\n" ++ tree ++ "\n" ++ fileListText st.fileList ++
        jsTrim st.output) := by
  unfold readCodebaseFiles
  rw [h, ht]
  rfl

/-- The content buffer is the concatenation of the blocks of the collected records. -/
theorem collect_output {directory : String} {root : Entry} {excludeDirs : List String}
    {st : State} (h : collect directory root excludeDirs = .ok st) :
    st.output = String.join (st.index.map FileRecord.block) := by
  obtain ⟨tree', files, -, -, rfl⟩ := collect_ok h
  rw [addFiles_output, addFiles_index]
  simp [initialState]

/-- The file counter is the number of collected records. -/
theorem collect_fileCount {directory : String} {root : Entry} {excludeDirs : List String}
    {st : State} (h : collect directory root excludeDirs = .ok st) :
    st.fileCount = st.index.length := by
  obtain ⟨tree', files, -, -, rfl⟩ := collect_ok h
  rw [addFiles_fileCount, addFiles_index]
  simp [initialState, recordsFrom_length]

/-- C18: after the collection the `Files processed` count is the number of
entries of the file index; the content buffer is one block per index entry, in
the same order, whose header line is `File: ` followed by the very text of that
entry (same relative path, same start line); the report prints that count. -/
theorem index_headers_agree (directory : String) (root : Entry) (excludeDirs : List String)
    (st : State) (h : collect directory root excludeDirs = .ok st) :
    st.fileCount = st.fileList.length ∧
    st.fileList = st.index.map (fun r => descriptor r.path r.startLine) ∧
    st.output = String.join (st.index.map (fun r =>
      "File: " ++ descriptor r.path r.startLine ++ "\n\n" ++ r.content ++ FILE_DELIMITER)) ∧
    ∃ tree, generateTree root "" excludeDirs = .ok tree ∧ ∀ centis,
      readCodebaseFiles directory root excludeDirs centis =
        .ok (summaryText directory st.fileList.length st.totalLines (toFixed2 centis)
            excludeDirs ++
          "Directory Structure:\n\n" ++ tree ++ "\n" ++ fileListText st.fileList ++
          jsTrim st.output) := by
  have hl := collect_fileList h
  have hc := collect_fileCount h
  have hlen : st.fileList.length = st.index.length := by rw [hl]; simp
  refine ⟨by rw [hc, hlen], hl, collect_output h, ?_⟩
  obtain ⟨tree, files, ht, -, -⟩ := collect_ok h
  refine ⟨tree, ht, fun centis => ?_⟩
  rw [readCodebaseFiles_of_collect h ht, hc, hlen]

set_option maxRecDepth 100000 in
/-- C18 on the example of the specification: two entries, two headers. -/
theorem index_headers_agree_witness :
    collect "proj" fsB [] = .ok stB ∧
    stB.fileList = ["a.js (starts at line 22)", "sub/b.md (starts at line 32)"] ∧
    (stB.fileCount = stB.fileList.length ∧
      stB.fileList = stB.index.map (fun r => descriptor r.path r.startLine) ∧
      stB.output = String.join (stB.index.map (fun r =>
        "File: " ++ descriptor r.path r.startLine ++ "\n\n" ++ r.content ++ FILE_DELIMITER)) ∧
      ∃ tree, generateTree fsB "" [] = .ok tree ∧ ∀ centis,
        readCodebaseFiles "proj" fsB [] centis =
          .ok (summaryText "proj" stB.fileList.length stB.totalLines (toFixed2 centis) [] ++
            "Directory Structure:\n\n" ++ tree ++ "\n" ++ fileListText stB.fileList ++
            jsTrim stB.output)) :=
  ⟨by decide, by decide, index_headers_agree "proj" fsB [] stB (by decide)⟩

/-- Cutting the longest suffix that satisfies `p` off a list. -/
theorem dropWhile_reverse_split {α : Type} (p : α → Bool) (l : List α) :
    (l.reverse.dropWhile p).reverse ++ (l.reverse.takeWhile p).reverse = l ∧
    (∀ c ∈ (l.reverse.takeWhile p).reverse, p c = true) ∧
    (∀ c, (l.reverse.dropWhile p).reverse.getLast? = some c → p c = false) := by
  refine ⟨?_, ?_, ?_⟩
  · rw [← List.reverse_append, List.takeWhile_append_dropWhile, List.reverse_reverse]
  · intro c hc
    rw [List.mem_reverse] at hc
    exact List.mem_takeWhile_imp hc
  · intro c hc
    rw [List.getLast?_reverse] at hc
    cases hd : l.reverse.dropWhile p with
    | nil => rw [hd] at hc; simp at hc
    | cons x xs =>
      rw [hd] at hc
      simp only [List.head?_cons, Option.some.injEq] at hc
      subst hc
      have := List.head_dropWhile_not p l.reverse (by rw [hd]; simp)
      simpa [hd] using this

/-- The content buffer is empty or starts with the `F` of `File:`. -/
theorem output_head {directory : String} {root : Entry} {excludeDirs : List String}
    {st : State} (h : collect directory root excludeDirs = .ok st) :
    st.output.data.dropWhile isJsWhitespace = st.output.data := by
  rw [collect_output h]
  cases st.index with
  | nil => rfl
  | cons r rs =>
    simp only [List.map_cons, join_cons, FileRecord.block, header, String.data_append,
      List.append_assoc]
    rfl

/-- C11: the report is the summary, the tree and the file index followed by
the trimmed content buffer, and trimming removes nothing but a run of white
space at the very end of the buffer: the buffer is the trimmed text followed
by white space only, and the trimmed text does not end in white space. -/
theorem content_section_trimmed_at_end (directory : String) (root : Entry)
    (excludeDirs : List String) (st : State) (tree : String) (centis : Nat)
    (h : collect directory root excludeDirs = .ok st)
    (ht : generateTree root "" excludeDirs = .ok tree) :
    readCodebaseFiles directory root excludeDirs centis =
      .ok (summaryText directory st.fileCount st.totalLines (toFixed2 centis) excludeDirs ++
        "Directory Structure:\n\n" ++ tree ++ "\n" ++ fileListText st.fileList ++
        jsTrim st.output) ∧
    ∃ ws : String, st.output = jsTrim st.output ++ ws ∧
      (∀ c ∈ ws.data, isJsWhitespace c = true) ∧
      (∀ c, (jsTrim st.output).data.getLast? = some c → isJsWhitespace c = false) := by
  refine ⟨readCodebaseFiles_of_collect h ht centis, ?_⟩
  have hh := output_head h
  obtain ⟨h1, h2, h3⟩ := dropWhile_reverse_split isJsWhitespace st.output.data
  refine ⟨⟨(st.output.data.reverse.takeWhile isJsWhitespace).reverse⟩, ?_, h2, ?_⟩
  · apply String.ext
    simp only [jsTrim, hh, String.data_append]
    exact h1.symm
  · simp only [jsTrim, hh]
    exact h3

/-- C13: either every run fails with the same error, or there are a tree and
collector variables, independent of the measured duration, such that every run
returns the same text around the value printed after `- Duration: `. -/
theorem report_independent_of_duration (directory : String) (root : Entry)
    (excludeDirs : List String) :
    (∃ e, ∀ centis, readCodebaseFiles directory root excludeDirs centis = .error e) ∨
    (∃ st tree, collect directory root excludeDirs = .ok st ∧
      generateTree root "" excludeDirs = .ok tree ∧
      ∀ centis, readCodebaseFiles directory root excludeDirs centis =
        .ok ("Summary:\n" ++
          "  - Directory: " ++ directory ++ "\n" ++
          "  - Files processed: " ++ toString st.fileCount ++ "\n" ++
          "  - Total lines: " ++ toString st.totalLines ++ "\n" ++
          "  - Duration: " ++ toFixed2 centis ++ " seconds\n" ++
          "  - Excluded directories: " ++
            (if excludeDirs.length > 0 then jsJoin excludeDirs ", " else "None") ++ "\n" ++
          "\n" ++ RULE ++ "\n" ++ "\n" ++
          "Directory Structure:\n\n" ++ tree ++ "\n" ++ fileListText st.fileList ++
          jsTrim st.output)) := by
  cases hc : collect directory root excludeDirs with
  | error e =>
    left
    refine ⟨e, fun centis => ?_⟩
    unfold readCodebaseFiles
    rw [hc]
    rfl
  | ok st =>
    right
    obtain ⟨tree, files, ht, -, -⟩ := collect_ok hc
    exact ⟨st, tree, rfl, ht, fun centis => readCodebaseFiles_of_collect hc ht centis⟩

set_option maxRecDepth 100000 in
/-- C11 on the example of the specification: only the final two newlines of
the buffer are cut. -/
theorem content_section_trimmed_at_end_witness :
    collect "proj" fsB [] = .ok stB ∧
    generateTree fsB "" [] = .ok "├── sub/\n│   └── b.md\n└── a.js\n" ∧
    stB.output = jsTrim stB.output ++ "\n\n" ∧
    (readCodebaseFiles "proj" fsB [] 7 =
        .ok (summaryText "proj" stB.fileCount stB.totalLines (toFixed2 7) [] ++
          "Directory Structure:\n\n" ++ "├── sub/\n│   └── b.md\n└── a.js\n" ++ "\n" ++
          fileListText stB.fileList ++ jsTrim stB.output) ∧
      ∃ ws : String, stB.output = jsTrim stB.output ++ ws ∧
        (∀ c ∈ ws.data, isJsWhitespace c = true) ∧
        (∀ c, (jsTrim stB.output).data.getLast? = some c → isJsWhitespace c = false)) :=
  ⟨by decide, by decide, by decide,
    content_section_trimmed_at_end "proj" fsB [] stB _ 7 (by decide) (by decide)⟩

/-- The two branches of `main`. -/
theorem main_eq (w : World) (args : List String) :
    main w args =
      if falsy (parseArgs args (none, [])).1 then usageOutcome
      else runPipeline w ((parseArgs args (none, [])).1.getD "") (parseArgs args (none, [])).2 := by
  unfold main usageOutcome runPipeline
  rfl

/-- The `try` block never leaves the three usage lines on the error channel. -/
theorem runPipeline_ne_usage (w : World) (d : String) (ex : List String) :
    runPipeline w d ex ≠ usageOutcome := by
  intro h
  have hs := congrArg (fun o => o.stderr.length) h
  unfold runPipeline usageOutcome at hs
  cases hr : readCodebaseFiles d (w.lookup d) ex w.centis with
  | error e => simp [hr] at hs
  | ok result =>
    by_cases hw : w.writable (w.pathJoin d "codebase_review.txt") = true
    · simp [hr, hw] at hs
    · simp [hr, hw] at hs

/-- Once `directory` holds a non-empty string the loop keeps it. -/
theorem parseArgs_truthy : ∀ (args : List String) (dir : Option String) (ex : List String),
    falsy dir = false → (parseArgs args (dir, ex)).1 = dir
  | [], dir, ex, _ => rfl
  | [a], dir, ex, h => by
    rw [parseArgs]
    split
    · rfl
    · simp [h]
  | a :: v :: rest, dir, ex, h => by
    rw [parseArgs]
    split
    · exact parseArgs_truthy rest dir _ h
    · simp only [h]
      exact parseArgs_truthy (v :: rest) dir ex h

/-- A non-empty string is truthy. -/
theorem falsy_some_of_ne {d : String} (h : d ≠ "") : falsy (some d) = false := by
  simp [falsy, h]

/-- While `directory` is `null` or empty the loop takes the next positional
argument. -/
theorem parseArgs_falsy : ∀ (args : List String) (dir : Option String) (ex : List String),
    falsy dir = true →
    (parseArgs args (dir, ex)).1 =
      match (positionals args).find? (fun a => decide (a ≠ "")) with
      | some d => some d
      | none => if positionals args = [] then dir else some ""
  | [], dir, ex, _ => rfl
  | [a], dir, ex, h => by
    rw [parseArgs, positionals]
    split
    · rfl
    · simp only [h, if_true]
      by_cases ha : a = ""
      · subst ha; simp
      · simp [ha]
  | a :: v :: rest, dir, ex, h => by
    rw [parseArgs, positionals]
    split
    · exact parseArgs_falsy rest dir _ h
    · by_cases ha : a = ""
      · subst ha
        rw [parseArgs_falsy (v :: rest) (some "") ex rfl]
        simp only [List.find?_cons, ne_eq, not_true_eq_false, decide_False]
        cases (positionals (v :: rest)).find? (fun a => decide (a ≠ "")) with
        | some d => rfl
        | none => simp
      · rw [parseArgs_truthy (v :: rest) (some a) ex (falsy_some_of_ne ha)]
        simp [ha]

/-- C12 (amended): `main` prints the usage message and exits with status 1,
without running the pipeline, if and only if the argument list has no
non-empty positional argument; otherwise the first non-empty positional
argument is the scan directory of the pipeline. -/
theorem usage_iff_no_nonempty_positional (w : World) (args : List String) :
    (main w args = usageOutcome ↔
      (positionals args).find? (fun a => decide (a ≠ "")) = none) ∧
    ∀ d, (positionals args).find? (fun a => decide (a ≠ "")) = some d →
      (parseArgs args (none, [])).1 = some d ∧
      main w args = runPipeline w d (parseArgs args (none, [])).2 := by
  have hp := parseArgs_falsy args none [] rfl
  have hsome : ∀ d, (positionals args).find? (fun a => decide (a ≠ "")) = some d →
      (parseArgs args (none, [])).1 = some d ∧
      main w args = runPipeline w d (parseArgs args (none, [])).2 := by
    intro d hd
    rw [hd] at hp
    have hne : d ≠ "" := by
      have := List.find?_some hd
      simpa using this
    refine ⟨hp, ?_⟩
    rw [main_eq, hp, falsy_some_of_ne hne]
    rfl
  refine ⟨⟨?_, ?_⟩, hsome⟩
  · intro hm
    cases hf : (positionals args).find? (fun a => decide (a ≠ "")) with
    | none => rfl
    | some d =>
      rw [(hsome d hf).2] at hm
      exact absurd hm (runPipeline_ne_usage w d _)
  · intro hnone
    rw [hnone] at hp
    rw [main_eq, hp]
    by_cases he : positionals args = []
    · simp [he, falsy]
    · simp [he, falsy]

set_option maxRecDepth 100000 in
/-- C12 as stated fails: the argument list `[""]` has a positional argument
and `main` prints the usage message; in `["", "proj"]` the first positional
argument is `""` and the scan directory is `proj`. -/
theorem usage_with_positional_counterexample :
    positionals [""] = [""] ∧ main worldE [""] = usageOutcome ∧
    (positionals ["", "proj"]).head? = some "" ∧
    (parseArgs ["", "proj"] (none, [])).1 = some "proj" := by
  decide

set_option maxRecDepth 100000 in
/-- C12 (amended) on `-e docs proj more`: the scan directory is `proj`. -/
theorem usage_iff_no_nonempty_positional_witness :
    (positionals ["-e", "docs", "proj", "more"]).find? (fun a => decide (a ≠ "")) =
      some "proj" ∧
    (parseArgs ["-e", "docs", "proj", "more"] (none, [])).1 = some "proj" ∧
    main worldE ["-e", "docs", "proj", "more"] = runPipeline worldE "proj" ["docs"] :=
  ⟨by decide,
    ((usage_iff_no_nonempty_positional worldE ["-e", "docs", "proj", "more"]).2 "proj"
      (by decide)).1,
    ((usage_iff_no_nonempty_positional worldE ["-e", "docs", "proj", "more"]).2 "proj"
      (by decide)).2⟩

/-- The file lines of one level show allowed files only. -/
theorem treeFiles_allowed (segs : List String) (indent : String) (n : Nat) :
    ∀ (files : List Entry) (index : Nat), ∀ l ∈ treeFiles segs indent n files index,
      l.isDir = false ∧ ∃ name, l.path = segs ++ [name] ∧ ¬ name ∈ IGNORED_FILES ∧
        extname name ∈ IMPORTANT_EXTENSIONS := by
  intro files
  induction files with
  | nil => intro index l hl; simp [treeFiles] at hl
  | cons f rest ih =>
    intro index l hl
    rw [treeFiles] at hl
    split at hl
    · rename_i hi
      simp only at hl
      split at hl
      · rename_i hx
        rcases List.mem_cons.1 hl with rfl | hl
        · exact ⟨rfl, f.name, rfl, hi, hx⟩
        · exact ih _ l hl
      · exact ih _ l hl
    · exact ih _ l hl

mutual
theorem treeLines_allowed (excludeDirs : List String) :
    ∀ (e : Entry) (segs : List String) (indent : String) (ls : List TreeLine),
      treeLines excludeDirs segs e indent = .ok ls → ∀ l ∈ ls, FileLineAllowed l
  | .directory _ readable entries, segs, indent, ls, h => by
    rw [treeLines] at h
    by_cases hr : readable = true
    · simp only [hr, if_true] at h
      cases h1 : treeDirectories excludeDirs segs indent
          (entries.filter Entry.isDirectory).length (entries.filter Entry.isFile).length entries 0 with
      | error e => rw [h1] at h; simp [bind, Except.bind] at h
      | ok dirLines =>
        rw [h1] at h
        simp only [bind, Except.bind, Except.ok.injEq] at h
        subst h
        intro l hl
        rcases List.mem_append.1 hl with hl | hl
        · exact treeDirectories_allowed excludeDirs entries segs indent _ _ 0 dirLines h1 l hl
        · obtain ⟨-, name, hp, hi, hx⟩ := treeFiles_allowed segs indent _ _ _ l hl
          exact fun _ => ⟨segs, name, hp, hi, hx⟩
    · simp [hr] at h
  | .file _ _, segs, indent, ls, h => by
    rw [treeLines] at h; cases h
  | .other _, segs, indent, ls, h => by
    rw [treeLines] at h; cases h
theorem treeDirectories_allowed (excludeDirs : List String) :
    ∀ (es : List Entry) (segs : List String) (indent : String) (nd nf index : Nat)
      (ls : List TreeLine),
      treeDirectories excludeDirs segs indent nd nf es index = .ok ls →
      ∀ l ∈ ls, FileLineAllowed l
  | [], segs, indent, nd, nf, index, ls, h => by
    rw [treeDirectories] at h
    cases h
    intro l hl
    cases hl
  | .directory name readable entries :: rest, segs, indent, nd, nf, index, ls, h => by
    rw [treeDirectories] at h
    split at h
    · simp only [bind, Except.bind] at h
      split at h
      · cases h
      · rename_i sub h1
        split at h
        · cases h
        · rename_i more h2
          simp only [Except.ok.injEq] at h
          subst h
          intro l hl
          rcases List.mem_cons.1 hl with rfl | hl
          · intro hd; simp at hd
          · rcases List.mem_append.1 hl with hl | hl
            · exact treeLines_allowed excludeDirs _ _ _ sub h1 l hl
            · exact treeDirectories_allowed excludeDirs rest segs indent nd nf _ more h2 l hl
    · exact treeDirectories_allowed excludeDirs rest segs indent nd nf _ ls h
  | .file _ _ :: rest, segs, indent, nd, nf, index, ls, h => by
    rw [treeDirectories] at h
    exact treeDirectories_allowed excludeDirs rest segs indent nd nf _ ls h
  | .other _ :: rest, segs, indent, nd, nf, index, ls, h => by
    rw [treeDirectories] at h
    exact treeDirectories_allowed excludeDirs rest segs indent nd nf _ ls h
end

mutual
theorem visitDirectory_allowed (excludeDirs : List String) :
    ∀ (e : Entry) (segs : List String) (files : List (List String × String)),
      visitDirectory excludeDirs segs e = .ok files → ∀ f ∈ files, FileAllowed f
  | .directory _ readable entries, segs, files, h => by
    rw [visitDirectory] at h
    by_cases hr : readable = true
    · simp only [hr, if_true] at h
      exact visitEntries_allowed excludeDirs entries segs files h
    · simp [hr] at h
  | .file _ _, segs, files, h => by
    rw [visitDirectory] at h; cases h
  | .other _, segs, files, h => by
    rw [visitDirectory] at h; cases h
theorem visitEntries_allowed (excludeDirs : List String) :
    ∀ (es : List Entry) (segs : List String) (files : List (List String × String)),
      visitEntries excludeDirs segs es = .ok files → ∀ f ∈ files, FileAllowed f
  | [], segs, files, h => by
    rw [visitEntries] at h
    cases h
    intro f hf
    cases hf
  | .directory name readable entries :: rest, segs, files, h => by
    rw [visitEntries] at h
    split at h
    · cases h1 : visitDirectory excludeDirs (segs ++ [name]) (.directory name readable entries) with
      | error e => rw [h1] at h; simp [bind, Except.bind] at h
      | ok inner =>
        cases h2 : visitEntries excludeDirs segs rest with
        | error e => rw [h1, h2] at h; simp [bind, Except.bind] at h
        | ok later =>
          rw [h1, h2] at h
          simp only [bind, Except.bind, Except.ok.injEq] at h
          subst h
          intro f hf
          rcases List.mem_append.1 hf with hf | hf
          · exact visitDirectory_allowed excludeDirs _ (segs ++ [name]) inner h1 f hf
          · exact visitEntries_allowed excludeDirs rest segs later h2 f hf
    · exact visitEntries_allowed excludeDirs rest segs files h
  | .file name (some text) :: rest, segs, files, h => by
    rw [visitEntries] at h
    split at h
    · rename_i hi
      split at h
      · rename_i hx
        cases h2 : visitEntries excludeDirs segs rest with
        | error e => rw [h2] at h; simp [bind, Except.bind] at h
        | ok later =>
          rw [h2] at h
          simp only [bind, Except.bind, Except.ok.injEq] at h
          subst h
          intro f hf
          rcases List.mem_cons.1 hf with rfl | hf
          · exact ⟨segs, name, rfl, hi.1, hx⟩
          · exact visitEntries_allowed excludeDirs rest segs later h2 f hf
      · exact visitEntries_allowed excludeDirs rest segs files h
    · exact visitEntries_allowed excludeDirs rest segs files h
  | .file name none :: rest, segs, files, h => by
    rw [visitEntries] at h
    split at h
    · split at h
      · cases h
      · exact visitEntries_allowed excludeDirs rest segs files h
    · exact visitEntries_allowed excludeDirs rest segs files h
  | .other _ :: rest, segs, files, h => by
    rw [visitEntries] at h
    exact visitEntries_allowed excludeDirs rest segs files h
end

/-- The last element of a list with an element appended. -/
theorem append_singleton_inj {α : Type} {a b : List α} {x y : α}
    (h : a ++ [x] = b ++ [y]) : x = y := by
  have := congrArg List.getLast? h
  simpa using this

/-- C17: a file whose name has an extension (`path.extname`) that is not,
character for character, in `IMPORTANT_EXTENSIONS` has no line in the tree and
no entry in the file index, wherever it lies and whatever the exclude list. -/
theorem extension_match_exact (directory : String) (root : Entry) (excludeDirs : List String)
    (position : List String) (name : String) (tree : String) (st : State)
    (hext : ¬ extname name ∈ IMPORTANT_EXTENSIONS)
    (ht : generateTree root "" excludeDirs = .ok tree)
    (hs : collect directory root excludeDirs = .ok st) :
    (∃ ls, treeLines excludeDirs [] root "" = .ok ls ∧ tree = renderTree ls ∧
      ∀ l ∈ ls, l.isDir = false → l.path ≠ position ++ [name]) ∧
    st.fileList = st.index.map FileRecord.descriptor ∧
    ∀ r ∈ st.index, r.path ≠ position ++ [name] := by
  refine ⟨?_, collect_fileList hs, ?_⟩
  · unfold generateTree at ht
    cases hl : treeLines excludeDirs [] root "" with
    | error e => rw [hl] at ht; simp [Except.map] at ht
    | ok ls =>
      rw [hl] at ht
      simp only [Except.map, Except.ok.injEq] at ht
      refine ⟨ls, rfl, ht.symm, ?_⟩
      intro l hmem hfile hp
      obtain ⟨segs, n, hpath, -, hx⟩ := treeLines_allowed excludeDirs root [] "" ls hl l hmem hfile
      rw [hp] at hpath
      rw [append_singleton_inj hpath] at hext
      exact hext hx
  · obtain ⟨tree', files, -, hv, rfl⟩ := collect_ok hs
    intro r hr hp
    rw [addFiles_index] at hr
    simp only [initialState, List.nil_append] at hr
    have hmem : r.path ∈ files.map Prod.fst := by
      rw [← recordsFrom_path files _]
      exact List.mem_map_of_mem _ hr
    obtain ⟨f, hf, hfp⟩ := List.mem_map.1 hmem
    obtain ⟨segs, n, hpath, -, hx⟩ := visitDirectory_allowed excludeDirs root [] files hv f hf
    rw [hfp, hp] at hpath
    rw [append_singleton_inj hpath] at hext
    exact hext hx

set_option maxRecDepth 100000 in
/-- C17 on a directory holding `script.JS`, `Makefile` and `a.js`: the
extension `.JS` and the empty extension are not allowed, and only `a.js` is
shown and collected. -/
theorem extension_match_exact_witness :
    extname "script.JS" = ".JS" ∧ ¬ extname "script.JS" ∈ IMPORTANT_EXTENSIONS ∧
    extname "Makefile" = "" ∧ ¬ extname "Makefile" ∈ IMPORTANT_EXTENSIONS ∧
    generateTree fsG "" [] = .ok "└── a.js\n" ∧
    collect "proj" fsG [] = .ok stG ∧
    stG.fileList = ["a.js (starts at line 20)"] ∧
    ((∃ ls, treeLines [] [] fsG "" = .ok ls ∧ "└── a.js\n" = renderTree ls ∧
        ∀ l ∈ ls, l.isDir = false → l.path ≠ [] ++ ["script.JS"]) ∧
      stG.fileList = stG.index.map FileRecord.descriptor ∧
      ∀ r ∈ stG.index, r.path ≠ [] ++ ["script.JS"]) :=
  ⟨by decide, by decide, by decide, by decide, by decide, by decide, by decide,
    extension_match_exact "proj" fsG [] [] "script.JS" _ stG (by decide) (by decide)
      (by decide)⟩

/-- The lines of the first loop are one block per shown directory, in listing
order. -/
theorem treeDirectories_blocks (excludeDirs segs : List String) (indent : String)
    (nd nf : Nat) : ∀ (entries : List Entry) (index : Nat) (dl : List TreeLine),
      treeDirectories excludeDirs segs indent nd nf entries index = .ok dl →
      ∃ blocks : List (List TreeLine), dl = blocks.flatten ∧
        List.Forall₂ (DirBlock excludeDirs segs indent)
          (entries.filter (visibleDir excludeDirs)) blocks := by
  intro entries
  induction entries with
  | nil =>
    intro index dl h
    rw [treeDirectories] at h
    cases h
    exact ⟨[], rfl, List.Forall₂.nil⟩
  | cons e rest ih =>
    intro index dl h
    cases e with
    | file n c =>
      rw [treeDirectories] at h
      rw [List.filter_cons_of_neg (by simp [visibleDir, Entry.isDirectory])]
      exact ih _ dl h
    | other n =>
      rw [treeDirectories] at h
      rw [List.filter_cons_of_neg (by simp [visibleDir, Entry.isDirectory])]
      exact ih _ dl h
    | directory name r es =>
      rw [treeDirectories] at h
      split at h
      · rename_i hc
        rw [List.filter_cons_of_pos (by simp [visibleDir, Entry.isDirectory, Entry.name, hc.1, hc.2])]
        simp only [bind, Except.bind] at h
        split at h
        · cases h
        · rename_i sub h1
          split at h
          · cases h
          · rename_i more h2
            simp only [Except.ok.injEq] at h
            subst h
            obtain ⟨blocks, hb, hf⟩ := ih _ more h2
            by_cases hl : index = nd - 1 ∧ nf = 0
            · refine ⟨(⟨segs ++ [name], true, indent ++ "└── " ++ name ++ "/\n"⟩ :: sub) :: blocks,
                by simp [hb, hl], List.Forall₂.cons ⟨"└── ", "    ", sub, Or.inl ⟨rfl, rfl⟩, ?_, ?_⟩ hf⟩
              · simpa [hl, Entry.name] using h1
              · simp [Entry.name]
            · refine ⟨(⟨segs ++ [name], true, indent ++ "├── " ++ name ++ "/\n"⟩ :: sub) :: blocks,
                by simp [hb, hl], List.Forall₂.cons ⟨"├── ", "│   ", sub, Or.inr ⟨rfl, rfl⟩, ?_, ?_⟩ hf⟩
              · simpa [hl, Entry.name] using h1
              · simp [Entry.name]
      · rename_i hc
        rw [List.filter_cons_of_neg (by
          simp only [visibleDir, Entry.isDirectory, Entry.name, Bool.true_and,
            Bool.and_eq_true, decide_eq_true_eq]
          exact hc)]
        exact ih _ dl h

/-- The lines of the second loop are one line per shown file, in listing order. -/
theorem treeFiles_lines (segs : List String) (indent : String) (n : Nat) :
    ∀ (files : List Entry) (index : Nat),
      List.Forall₂ (FileLine segs indent)
        (files.filter (fun f => decide (¬ f.name ∈ IGNORED_FILES) &&
          decide (extname f.name ∈ IMPORTANT_EXTENSIONS)))
        (treeFiles segs indent n files index) := by
  intro files
  induction files with
  | nil => intro index; exact List.Forall₂.nil
  | cons f rest ih =>
    intro index
    rw [treeFiles]
    by_cases hi : f.name ∈ IGNORED_FILES
    · rw [List.filter_cons_of_neg (by simp [hi])]
      simpa [hi] using ih (index + 1)
    · by_cases hx : extname f.name ∈ IMPORTANT_EXTENSIONS
      · rw [List.filter_cons_of_pos (by simp [hi, hx])]
        simp only [hi, not_false_eq_true, if_true, hx]
        refine List.Forall₂.cons ?_ (ih (index + 1))
        by_cases hl : index = n - 1
        · exact ⟨"└── ", Or.inl rfl, by simp [hl]⟩
        · exact ⟨"├── ", Or.inr rfl, by simp [hl]⟩
      · rw [List.filter_cons_of_neg (by simp [hi, hx])]
        simpa [hi, hx] using ih (index + 1)

/-- The lines of one level: the blocks of the shown directories, then the lines
of the shown files. -/
theorem treeLines_level (excludeDirs segs : List String) (rootName : String)
    (entries : List Entry) (indent : String) (ls : List TreeLine)
    (h : treeLines excludeDirs segs (.directory rootName true entries) indent = .ok ls) :
    ∃ (blocks : List (List TreeLine)) (fileLines : List TreeLine),
      ls = blocks.flatten ++ fileLines ∧
      List.Forall₂ (DirBlock excludeDirs segs indent)
        (entries.filter (visibleDir excludeDirs)) blocks ∧
      List.Forall₂ (FileLine segs indent) (entries.filter visibleFile) fileLines := by
  rw [treeLines] at h
  simp only [if_true, bind, Except.bind] at h
  split at h
  · cases h
  · rename_i dl h1
    simp only [Except.ok.injEq] at h
    subst h
    obtain ⟨blocks, hb, hf⟩ := treeDirectories_blocks excludeDirs segs indent _ _ entries 0 dl h1
    refine ⟨blocks, _, by rw [hb], hf, ?_⟩
    have := treeFiles_lines segs indent (entries.filter Entry.isFile).length
      (entries.filter Entry.isFile) 0
    rw [List.filter_filter] at this
    have he : (fun a => ((decide (¬ a.name ∈ IGNORED_FILES) &&
        decide (extname a.name ∈ IMPORTANT_EXTENSIONS)) && a.isFile)) = visibleFile := by
      funext a
      simp only [visibleFile]
      cases a.isFile <;> simp
    rw [he] at this
    exact this

/-- Related lists: every element on the left has a partner on the right. -/
theorem forall2_mem_left {α β : Type} {R : α → β → Prop} {l1 : List α} {l2 : List β}
    (h : List.Forall₂ R l1 l2) : ∀ a ∈ l1, ∃ b ∈ l2, R a b := by
  induction h with
  | nil => intro a ha; cases ha
  | cons hr _ ih =>
    intro a ha
    rcases List.mem_cons.1 ha with rfl | ha
    · exact ⟨_, List.mem_cons_self _ _, hr⟩
    · obtain ⟨b, hb, hab⟩ := ih a ha
      exact ⟨b, List.mem_cons_of_mem _ hb, hab⟩

/-- A rendered directory was listed successfully. -/
theorem treeLines_readable {excludeDirs segs : List String} {name : String} {r : Bool}
    {entries : List Entry} {indent : String} {ls : List TreeLine}
    (h : treeLines excludeDirs segs (.directory name r entries) indent = .ok ls) : r = true := by
  rw [treeLines] at h
  by_cases hr : r = true
  · exact hr
  · simp [hr] at h

/-- A directory reached through shown directories has its own line. -/
theorem treeLines_hasDir (excludeDirs : List String) :
    ∀ (p : List String) (root : Entry) (segs : List String) (indent : String)
      (ls : List TreeLine),
      treeLines excludeDirs segs root indent = .ok ls → hasDir p root = true →
      (∀ x ∈ p, ¬ x ∈ IGNORED_DIRS ∧ ¬ x ∈ excludeDirs) →
      ∃ l ∈ ls, l.path = segs ++ p ∧ l.isDir = true ∧
        ∃ ind conn name, p.getLast? = some name ∧ (conn = "└── " ∨ conn = "├── ") ∧
          l.text = ind ++ conn ++ name ++ "/\n" := by
  intro p
  induction p with
  | nil => intro root segs indent ls _ hp; simp [hasDir] at hp
  | cons name rest ih =>
    intro root segs indent ls h hp hok
    cases root with
    | file n c => simp [hasDir] at hp
    | other n => simp [hasDir] at hp
    | directory rn r entries =>
      have hr := treeLines_readable h
      subst hr
      obtain ⟨blocks, fileLines, hls, hblocks, -⟩ :=
        treeLines_level excludeDirs segs rn entries indent ls h
      rw [hasDir, List.any_eq_true] at hp
      obtain ⟨e, he, hcond⟩ := hp
      simp only [Bool.and_eq_true, Bool.or_eq_true, beq_iff_eq] at hcond
      obtain ⟨⟨hdir, hname⟩, hrest⟩ := hcond
      have hnameok := hok name (List.mem_cons_self _ _)
      have hvis : e ∈ entries.filter (visibleDir excludeDirs) := by
        rw [List.mem_filter]
        refine ⟨he, ?_⟩
        simp [visibleDir, hdir, hname, hnameok.1, hnameok.2]
      obtain ⟨block, hbmem, conn, cont, sub, hconn, hsub, hblock⟩ :=
        forall2_mem_left hblocks e hvis
      have hsubset : ∀ l ∈ block, l ∈ ls := by
        intro l hl
        rw [hls]
        exact List.mem_append_left _ (List.mem_flatten.2 ⟨block, hbmem, hl⟩)
      rw [hname] at hsub hblock
      cases rest with
      | nil =>
        refine ⟨_, hsubset _ (by rw [hblock]; exact List.mem_cons_self _ _), rfl, rfl,
          indent, conn, name, rfl, ?_, rfl⟩
        rcases hconn with h1 | h1
        · exact Or.inl h1.1
        · exact Or.inr h1.1
      | cons n2 rest2 =>
        have hrest' : hasDir (n2 :: rest2) e = true := by
          rcases hrest with h1 | h1
          · simp at h1
          · exact h1
        obtain ⟨l, hl, hpath, hisdir, ind, c, nm, hlast, hc, htext⟩ :=
          ih e (segs ++ [name]) _ sub hsub hrest'
            (fun x hx => hok x (List.mem_cons_of_mem _ hx))
        refine ⟨l, hsubset l (by rw [hblock]; exact List.mem_cons_of_mem _ hl), ?_, hisdir,
          ind, c, nm, ?_, hc, htext⟩
        · rw [hpath]; simp
        · rw [← hlast]; simp [List.getLast?_cons_cons]

/-- The text of the file lines does not depend on the position. -/
theorem treeFiles_text (segs segs' : List String) (indent : String) (n : Nat) :
    ∀ (files : List Entry) (index : Nat),
      (treeFiles segs' indent n files index).map TreeLine.text =
        (treeFiles segs indent n files index).map TreeLine.text := by
  intro files
  induction files with
  | nil => intro index; rfl
  | cons f rest ih =>
    intro index
    rw [treeFiles, treeFiles]
    split
    · simp only
      split
      · simp only [List.map_cons, ih]
      · exact ih _
    · exact ih _

mutual
theorem treeLines_text (excludeDirs : List String) :
    ∀ (e : Entry) (segs segs' : List String) (indent : String) (ls : List TreeLine),
      treeLines excludeDirs segs e indent = .ok ls →
      ∃ ls', treeLines excludeDirs segs' e indent = .ok ls' ∧
        ls'.map TreeLine.text = ls.map TreeLine.text
  | .directory _ readable entries, segs, segs', indent, ls, h => by
    rw [treeLines] at h
    rw [treeLines]
    by_cases hr : readable = true
    · simp only [hr, if_true] at h ⊢
      cases h1 : treeDirectories excludeDirs segs indent
          (entries.filter Entry.isDirectory).length (entries.filter Entry.isFile).length entries 0 with
      | error e => rw [h1] at h; simp [bind, Except.bind] at h
      | ok dirLines =>
        rw [h1] at h
        simp only [bind, Except.bind, Except.ok.injEq] at h
        subst h
        obtain ⟨dl', hd', ht'⟩ :=
          treeDirectories_text excludeDirs entries segs segs' indent _ _ 0 dirLines h1
        rw [hd']
        refine ⟨_, rfl, ?_⟩
        simp only [List.map_append, ht', treeFiles_text segs segs']
    · simp [hr] at h
  | .file _ _, segs, segs', indent, ls, h => by
    rw [treeLines] at h; cases h
  | .other _, segs, segs', indent, ls, h => by
    rw [treeLines] at h; cases h
theorem treeDirectories_text (excludeDirs : List String) :
    ∀ (es : List Entry) (segs segs' : List String) (indent : String) (nd nf index : Nat)
      (ls : List TreeLine),
      treeDirectories excludeDirs segs indent nd nf es index = .ok ls →
      ∃ ls', treeDirectories excludeDirs segs' indent nd nf es index = .ok ls' ∧
        ls'.map TreeLine.text = ls.map TreeLine.text
  | [], segs, segs', indent, nd, nf, index, ls, h => by
    rw [treeDirectories] at h
    cases h
    exact ⟨[], by rw [treeDirectories], rfl⟩
  | .directory name readable entries :: rest, segs, segs', indent, nd, nf, index, ls, h => by
    rw [treeDirectories] at h
    rw [treeDirectories]
    split at h
    · rename_i hc
      simp only [hc, not_false_eq_true, and_self, if_true]
      simp only [bind, Except.bind] at h ⊢
      split at h
      · cases h
      · rename_i sub h1
        split at h
        · cases h
        · rename_i more h2
          simp only [Except.ok.injEq] at h
          subst h
          obtain ⟨sub', hs', hst'⟩ := treeLines_text excludeDirs _ (segs ++ [name])
            (segs' ++ [name]) _ sub h1
          obtain ⟨more', hm', hmt'⟩ := treeDirectories_text excludeDirs rest segs segs' indent
            nd nf _ more h2
          rw [hs', hm']
          refine ⟨_, rfl, ?_⟩
          simp only [List.map_cons, List.map_append, hst', hmt']
    · rename_i hc
      simp only [hc, if_false]
      exact treeDirectories_text excludeDirs rest segs segs' indent nd nf _ ls h
  | .file _ _ :: rest, segs, segs', indent, nd, nf, index, ls, h => by
    rw [treeDirectories] at h
    rw [treeDirectories]
    exact treeDirectories_text excludeDirs rest segs segs' indent nd nf _ ls h
  | .other _ :: rest, segs, segs', indent, nd, nf, index, ls, h => by
    rw [treeDirectories] at h
    rw [treeDirectories]
    exact treeDirectories_text excludeDirs rest segs segs' indent nd nf _ ls h
end

/-- Concatenation of two lists of strings. -/
theorem join_append (xs ys : List String) :
    String.join (xs ++ ys) = String.join xs ++ String.join ys := by
  apply String.ext
  simp [String.data_join]

/-- Concatenation of a list of lists of strings. -/
theorem join_map_join (xss : List (List String)) :
    String.join xss.flatten = String.join (xss.map String.join) := by
  apply String.ext
  simp only [String.data_join, List.map_flatten, List.map_map]
  induction xss with
  | nil => rfl
  | cons x xs ih => simp [ih, String.data_join]

/-- The string returned by `generateTree` for a subdirectory at any position. -/
theorem generateTree_of_treeLines {excludeDirs segs : List String} {e : Entry}
    {indent : String} {ls : List TreeLine}
    (h : treeLines excludeDirs segs e indent = .ok ls) :
    generateTree e indent excludeDirs = .ok (renderTree ls) := by
  obtain ⟨ls', h', ht⟩ := treeLines_text excludeDirs e segs [] indent ls h
  unfold generateTree
  rw [h']
  simp only [Except.map, renderTree, ht]

/-- C15: the string returned by `generateTree` for a directory is, in this
order, one text per shown subdirectory in listing order, made of the line of
the subdirectory immediately followed by what `generateTree` returns for it,
and then one line per shown file in listing order. -/
theorem tree_level_order (excludeDirs : List String) (rootName : String) (readable : Bool)
    (entries : List Entry) (indent : String) (tree : String)
    (h : generateTree (.directory rootName readable entries) indent excludeDirs = .ok tree) :
    ∃ (dirTexts fileTexts : List String),
      tree = String.join dirTexts ++ String.join fileTexts ∧
      List.Forall₂ (fun d t => ∃ conn cont sub,
          (conn = "└── " ∧ cont = "    " ∨ conn = "├── " ∧ cont = "│   ") ∧
          generateTree d (indent ++ cont) excludeDirs = .ok sub ∧
          t = indent ++ conn ++ d.name ++ "/\n" ++ sub)
        (entries.filter (visibleDir excludeDirs)) dirTexts ∧
      List.Forall₂ (fun f t => ∃ conn, (conn = "└── " ∨ conn = "├── ") ∧
          t = indent ++ conn ++ f.name ++ "\n")
        (entries.filter visibleFile) fileTexts := by
  unfold generateTree at h
  cases hl : treeLines excludeDirs [] (.directory rootName readable entries) indent with
  | error e => rw [hl] at h; simp [Except.map] at h
  | ok ls =>
    rw [hl] at h
    simp only [Except.map, Except.ok.injEq] at h
    have hr := treeLines_readable hl
    subst hr
    obtain ⟨blocks, fileLines, hls, hblocks, hfiles⟩ :=
      treeLines_level excludeDirs [] rootName entries indent ls hl
    refine ⟨blocks.map renderTree, fileLines.map TreeLine.text, ?_, ?_, ?_⟩
    · rw [← h, hls]
      simp only [renderTree, List.map_append, join_append, List.map_flatten, join_map_join,
        List.map_map]
      rfl
    · rw [List.forall₂_map_right_iff]
      refine hblocks.imp ?_
      rintro d block ⟨conn, cont, sub, hconn, hsub, hblock⟩
      refine ⟨conn, cont, renderTree sub, hconn, generateTree_of_treeLines hsub, ?_⟩
      rw [hblock]
      simp only [renderTree, List.map_cons]
      apply String.ext
      simp [String.data_join]
    · rw [List.forall₂_map_right_iff]
      refine hfiles.imp ?_
      rintro f l ⟨conn, hconn, hl'⟩
      exact ⟨conn, hconn, by rw [hl']⟩

/-- Characters of a joined list of strings. -/
theorem intercalate_go_data (s : String) : ∀ (l : List String) (acc : String),
    (String.intercalate.go acc s l).data =
      acc.data ++ (l.map (fun a => s.data ++ a.data)).flatten := by
  intro l
  induction l with
  | nil => intro acc; simp [String.intercalate.go]
  | cons a as ih =>
    intro acc
    rw [String.intercalate.go, ih]
    simp [String.data_append, List.append_assoc]

/-- A text without separator is one piece. -/
theorem splitChars_sepFree (sep : Char) : ∀ a : List Char, ¬ sep ∈ a →
    splitChars sep a = [a] := by
  intro a
  induction a with
  | nil => intro _; rfl
  | cons c cs ih =>
    intro h
    have hc : c ≠ sep := fun hh => h (hh ▸ List.mem_cons_self _ _)
    have hcs : ¬ sep ∈ cs := fun hh => h (List.mem_cons_of_mem _ hh)
    rw [splitChars, ih hcs]
    simp [hc]

/-- The first piece of a text ends at its first separator. -/
theorem splitChars_append (sep : Char) (rest : List Char) : ∀ a : List Char, ¬ sep ∈ a →
    splitChars sep (a ++ sep :: rest) = a :: splitChars sep rest := by
  intro a
  induction a with
  | nil => intro _; simp [splitChars]
  | cons c cs ih =>
    intro h
    have hc : c ≠ sep := fun hh => h (hh ▸ List.mem_cons_self _ _)
    have hcs : ¬ sep ∈ cs := fun hh => h (List.mem_cons_of_mem _ hh)
    rw [List.cons_append, splitChars, ih hcs]
    simp [hc]

/-- Splitting undoes joining when no piece holds the separator. -/
theorem splitChars_joined (sep : Char) : ∀ (as : List (List Char)) (a : List Char),
    ¬ sep ∈ a → (∀ x ∈ as, ¬ sep ∈ x) →
    splitChars sep (a ++ (as.map (fun x => sep :: x)).flatten) = a :: as := by
  intro as
  induction as with
  | nil => intro a ha _; simpa using splitChars_sepFree sep a ha
  | cons b bs ih =>
    intro a ha h
    simp only [List.map_cons, List.flatten_cons, List.cons_append]
    rw [splitChars_append sep _ a ha,
      ih b (h b (List.mem_cons_self _ _)) (fun x hx => h x (List.mem_cons_of_mem _ hx))]

/-- The segments of a relative path are the names of the position. -/
theorem jsSplit_relativePath (segs : List String) (hne : segs ≠ [])
    (h : ∀ x ∈ segs, ¬ '/' ∈ x.data) : jsSplit (relativePath segs) '/' = segs := by
  cases segs with
  | nil => exact absurd rfl hne
  | cons a as =>
    unfold jsSplit relativePath jsJoin
    rw [String.intercalate, intercalate_go_data]
    have hd : ("/" : String).data = ['/'] := rfl
    have hmap : (as.map (fun x => ("/" : String).data ++ x.data)) =
        (as.map String.data).map (fun x => '/' :: x) := by
      simp [hd, List.map_map, Function.comp]
    have hid : (String.mk ∘ String.data) = id := by funext x; rfl
    rw [hmap, splitChars_joined '/' (as.map String.data) a.data
      (h a (List.mem_cons_self _ _))]
    · simp [List.map_map, hid]
    · intro x hx
      obtain ⟨y, hy, rfl⟩ := List.mem_map.1 hx
      exact h y (List.mem_cons_of_mem _ hy)

/-- At a position reached through directories that are not excluded the
ancestor check does not fire, unless the empty string is excluded. -/
theorem isExcluded_false {excludeDirs segs : List String} (h0 : ¬ "" ∈ excludeDirs)
    (h : SegsOk excludeDirs segs) : isExcluded excludeDirs segs = false := by
  unfold isExcluded
  cases segs with
  | nil =>
    have : jsSplit (relativePath []) '/' = [""] := by decide
    rw [this]
    simp [h0]
  | cons a as =>
    rw [jsSplit_relativePath (a :: as) (by simp) (fun x hx => (h x hx).1)]
    rw [List.any_eq_false]
    intro x hx
    simpa using (h x hx).2

/-- Going down into a directory that is not excluded. -/
theorem segsOk_snoc {excludeDirs segs : List String} {name : String}
    (h : SegsOk excludeDirs segs) (hs : ¬ '/' ∈ name.data) (hx : ¬ name ∈ excludeDirs) :
    SegsOk excludeDirs (segs ++ [name]) := by
  intro x hmem
  rcases List.mem_append.1 hmem with hm | hm
  · exact h x hm
  · rw [List.mem_singleton] at hm
    subst hm
    exact ⟨hs, hx⟩

mutual
theorem processDirectoryNoCheck_eq (excludeDirs : List String) (h0 : ¬ "" ∈ excludeDirs) :
    ∀ (e : Entry) (segs : List String) (st : State),
      SegsOk excludeDirs segs → dirNamesOk e = true →
      processDirectoryNoCheck excludeDirs segs e st = processDirectory excludeDirs segs e st
  | .directory _ readable entries, segs, st, hs, hn => by
    rw [processDirectoryNoCheck, processDirectory]
    rw [dirNamesOk] at hn
    by_cases hr : readable = true
    · simp only [hr, if_true]
      exact processEntriesNoCheck_eq excludeDirs h0 entries segs st hs hn
    · simp [hr]
  | .file _ _, segs, st, _, _ => by
    rw [processDirectoryNoCheck, processDirectory]
  | .other _, segs, st, _, _ => by
    rw [processDirectoryNoCheck, processDirectory]
theorem processEntriesNoCheck_eq (excludeDirs : List String) (h0 : ¬ "" ∈ excludeDirs) :
    ∀ (es : List Entry) (segs : List String) (st : State),
      SegsOk excludeDirs segs → dirNamesOkList es = true →
      processEntriesNoCheck excludeDirs segs es st = processEntries excludeDirs segs es st
  | [], segs, st, _, _ => by
    rw [processEntriesNoCheck, processEntries]
  | .directory name readable entries :: rest, segs, st, hs, hn => by
    rw [processEntriesNoCheck, processEntries]
    rw [dirNamesOkList] at hn
    simp only [Bool.and_eq_true, Bool.not_eq_true', List.contains_eq_any_beq] at hn
    obtain ⟨⟨hname, hsub⟩, hrest⟩ := hn
    have hname' : ¬ '/' ∈ name.data := by
      intro hm
      rw [List.any_eq_false] at hname
      have := hname '/' hm
      simp at this
    simp only [isExcluded_false h0 hs, Bool.false_eq_true, not_false_eq_true, and_true]
    split
    · rename_i hc
      rw [processDirectoryNoCheck_eq excludeDirs h0 _ (segs ++ [name]) st
        (segsOk_snoc hs hname' hc.2) hsub]
      cases processDirectory excludeDirs (segs ++ [name]) (.directory name readable entries) st with
      | error e => rfl
      | ok st1 =>
        simp only [bind, Except.bind]
        exact processEntriesNoCheck_eq excludeDirs h0 rest segs st1 hs hrest
    · exact processEntriesNoCheck_eq excludeDirs h0 rest segs st hs hrest
  | .file name (some text) :: rest, segs, st, hs, hn => by
    rw [processEntriesNoCheck, processEntries]
    rw [dirNamesOkList] at hn
    simp only [isExcluded_false h0 hs, Bool.false_eq_true, not_false_eq_true, and_true]
    split
    · split
      · exact processEntriesNoCheck_eq excludeDirs h0 rest segs _ hs hn
      · exact processEntriesNoCheck_eq excludeDirs h0 rest segs st hs hn
    · exact processEntriesNoCheck_eq excludeDirs h0 rest segs st hs hn
  | .file name none :: rest, segs, st, hs, hn => by
    rw [processEntriesNoCheck, processEntries]
    rw [dirNamesOkList] at hn
    simp only [isExcluded_false h0 hs, Bool.false_eq_true, not_false_eq_true, and_true]
    split
    · split
      · rfl
      · exact processEntriesNoCheck_eq excludeDirs h0 rest segs st hs hn
    · exact processEntriesNoCheck_eq excludeDirs h0 rest segs st hs hn
  | .other _ :: rest, segs, st, hs, hn => by
    rw [processEntriesNoCheck, processEntries]
    rw [dirNamesOkList] at hn
    exact processEntriesNoCheck_eq excludeDirs h0 rest segs st hs hn
end

/-- C14: a subdirectory at position `p` whose own name and whose ancestors'
names are neither ignored nor excluded has, in the tree, a line made of an
indentation, a connector, its name and `/`, whatever it contains. -/
theorem visible_directory_has_line (excludeDirs : List String) (root : Entry)
    (indent : String) (tree : String) (p : List String)
    (h : generateTree root indent excludeDirs = .ok tree)
    (hp : hasDir p root = true)
    (hok : ∀ x ∈ p, ¬ x ∈ IGNORED_DIRS ∧ ¬ x ∈ excludeDirs) :
    ∃ ls, treeLines excludeDirs [] root indent = .ok ls ∧ tree = renderTree ls ∧
      ∃ l ∈ ls, l.path = p ∧ l.isDir = true ∧
        ∃ ind conn name, p.getLast? = some name ∧ (conn = "└── " ∨ conn = "├── ") ∧
          l.text = ind ++ conn ++ name ++ "/\n" := by
  unfold generateTree at h
  cases hl : treeLines excludeDirs [] root indent with
  | error e => rw [hl] at h; simp [Except.map] at h
  | ok ls =>
    rw [hl] at h
    simp only [Except.map, Except.ok.injEq] at h
    refine ⟨ls, rfl, h.symm, ?_⟩
    simpa using treeLines_hasDir excludeDirs p root [] indent ls hl hp hok

set_option maxRecDepth 100000 in
/-- C14 on a project whose directory `docs/empty` holds nothing. -/
theorem visible_directory_has_line_witness :
    generateTree fsH "" [] = .ok "├── docs/\n│   └── empty/\n└── a.js\n" ∧
    hasDir ["docs", "empty"] fsH = true ∧
    ∃ ls, treeLines [] [] fsH "" = .ok ls ∧
      "├── docs/\n│   └── empty/\n└── a.js\n" = renderTree ls ∧
      ∃ l ∈ ls, l.path = ["docs", "empty"] ∧ l.isDir = true ∧
        ∃ ind conn name, ["docs", "empty"].getLast? = some name ∧
          (conn = "└── " ∨ conn = "├── ") ∧ l.text = ind ++ conn ++ name ++ "/\n" :=
  ⟨by decide, by decide,
    visible_directory_has_line [] fsH "" _ ["docs", "empty"] (by decide) (by decide)
      (by decide)⟩

set_option maxRecDepth 100000 in
/-- C15 on the example of the specification: `sub/` with its subtree, then
`a.js`, although `a.js` is listed first. -/
theorem tree_level_order_witness :
    generateTree fsB "" [] = .ok "├── sub/\n│   └── b.md\n└── a.js\n" ∧
    ∃ (dirTexts fileTexts : List String),
      "├── sub/\n│   └── b.md\n└── a.js\n" = String.join dirTexts ++ String.join fileTexts ∧
      List.Forall₂ (fun d t => ∃ conn cont sub,
          (conn = "└── " ∧ cont = "    " ∨ conn = "├── " ∧ cont = "│   ") ∧
          generateTree d ("" ++ cont) [] = .ok sub ∧
          t = "" ++ conn ++ d.name ++ "/\n" ++ sub)
        ([.file "a.js" (some "1\n2\n3"),
          .directory "sub" true [.file "b.md" (some "x\ny")]].filter (visibleDir []))
        dirTexts ∧
      List.Forall₂ (fun f t => ∃ conn, (conn = "└── " ∨ conn = "├── ") ∧
          t = "" ++ conn ++ f.name ++ "\n")
        ([.file "a.js" (some "1\n2\n3"),
          .directory "sub" true [.file "b.md" (some "x\ny")]].filter visibleFile)
        fileTexts :=
  ⟨by decide,
    tree_level_order [] "proj" true
      [.file "a.js" (some "1\n2\n3"), .directory "sub" true [.file "b.md" (some "x\ny")]]
      "" _ (by decide)⟩

/-- C19: when the exclude list does not hold the empty string, and directory
names are free of the path separator as `readdir` returns them, the collector
without the ancestor check gives, from every state, the same result as the
collector as written: same content buffer, file list, file count and total
lines, or the same failure. -/
theorem isExcluded_check_redundant (directory : String) (root : Entry)
    (excludeDirs : List String) (h0 : ¬ "" ∈ excludeDirs) (hn : dirNamesOk root = true) :
    (∀ st, processDirectoryNoCheck excludeDirs [] root st =
      processDirectory excludeDirs [] root st) ∧
    collectNoCheck directory root excludeDirs = collect directory root excludeDirs := by
  have h : ∀ st, processDirectoryNoCheck excludeDirs [] root st =
      processDirectory excludeDirs [] root st := fun st =>
    processDirectoryNoCheck_eq excludeDirs h0 root [] st (fun x hx => by cases hx) hn
  refine ⟨h, ?_⟩
  unfold collectNoCheck collect
  cases generateTree root "" excludeDirs with
  | error e => rfl
  | ok tree =>
    simp only [bind, Except.bind]
    exact h _

set_option maxRecDepth 100000 in
/-- C19 on a project with a directory `test` at two depths, `test` excluded. -/
theorem isExcluded_check_redundant_witness :
    ¬ "" ∈ ["test"] ∧ dirNamesOk fsC = true ∧
    collectNoCheck "proj" fsC ["test"] = .ok stC ∧
    ((∀ st, processDirectoryNoCheck ["test"] [] fsC st =
        processDirectory ["test"] [] fsC st) ∧
      collectNoCheck "proj" fsC ["test"] = collect "proj" fsC ["test"]) :=
  ⟨by decide, by decide, by decide,
    isExcluded_check_redundant "proj" fsC ["test"] (by decide) (by decide)⟩

end CodeView
